import Mathlib

/-!
Verification of the MuNG notation-graph library and its mung2midi inference
engines (graph mutators of `mung/graph.py`, the duration/onset engine of
`mung2midi/inference/onsets_inference.py` and the pitch state of
`mung2midi/inference/pitch_inference.py`) against its specification.

The Python sources are shallowly embedded: symbol nodes become a `Node`
structure, a notation graph is the list of its nodes, in-place mutation
becomes functional update of the node list, Python exceptions become
`Except Err`, `Fraction` becomes `ℚ`, and Python dicts become association
lists that keep insertion order.  The embedding follows the source line by
line; places where a behaviour of the Python runtime itself is being
modelled (e.g. an operation that raises `TypeError`) are marked by comments.
-/

namespace Mung

/-- Python-level failure outcomes.  The distinctions mirror the exception
classes raised by the source: `ValueError` (and its subclass
`NotationGraphError` is `graphErr`), `TypeError`, `KeyError`,
`NotImplementedError`, `AttributeError`. -/
inductive Err where
  | valueErr
  | typeErr
  | keyErr
  | graphErr
  | notImplErr
  | attrErr
deriving DecidableEq, Repr

instance {ε α : Type} [DecidableEq ε] [DecidableEq α] :
    DecidableEq (Except ε α) := fun x y =>
  match x, y with
  | .error e, .error f => decidable_of_iff (e = f) (by simp)
  | .ok a, .ok b => decidable_of_iff (a = b) (by simp)
  | .error _, .ok _ => isFalse (by simp)
  | .ok _, .error _ => isFalse (by simp)

/-- A MuNG symbol node as consumed by `mung/graph.py` and the inference
engines: integer id, class name, bounding box (`top < bottom`,
`left < right` in the data model), attachment `inlinks`/`outlinks`, and the
two precedence-link lists stored under the `precedence_inlinks` /
`precedence_outlinks` keys of `Node.data` (an absent key is modelled as the
empty list; the code treats a missing key and an empty list the same way
except for the exact `ValueError` message). -/
structure Node where
  id : Nat
  className : String
  top : Int := 0
  left : Int := 0
  bottom : Int := 0
  right : Int := 0
  inlinks : List Nat := []
  outlinks : List Nat := []
  pin : List Nat := []
  pout : List Nat := []
deriving DecidableEq, Repr

/-- A notation graph is its list of nodes (`NotationGraph.__nodes`). -/
abbrev Graph : Type := List Node

/-- The id → node index (`NotationGraph.__id_to_node_mapping`).  The dict
comprehension keeps the last node for a duplicated id, hence the reversed
search; the data model requires ids to be unique, in which case this is
just "the node with this id". -/
def idToNode (g : Graph) (i : Nat) : Option Node :=
  g.reverse.find? (fun n => n.id == i)

/-- Membership of an id in the id → node index. -/
def hasNodeB (g : Graph) (i : Nat) : Bool :=
  (idToNode g i).isSome

/-- The multiset of node ids of the graph. -/
def idsOf (g : Graph) : List Nat :=
  g.map (fun n => n.id)

/-- Functional rendering of a Python in-place mutation of the node object
with id `i`: every listed node carrying that id is updated (with unique ids,
exactly one node). -/
def update (g : Graph) (i : Nat) (f : Node → Node) : Graph :=
  g.map (fun n => if n.id = i then f n else n)

/-- Attachment outlinks of the node with id `i` (empty if `i` is absent). -/
def outG (g : Graph) (i : Nat) : List Nat :=
  match idToNode g i with
  | some n => n.outlinks
  | none => []

/-- Attachment inlinks of the node with id `i` (empty if `i` is absent). -/
def inG (g : Graph) (i : Nat) : List Nat :=
  match idToNode g i with
  | some n => n.inlinks
  | none => []

/-- Precedence inlinks (`data["precedence_inlinks"]`) of the node `i`. -/
def pinG (g : Graph) (i : Nat) : List Nat :=
  match idToNode g i with
  | some n => n.pin
  | none => []

/-- Precedence outlinks (`data["precedence_outlinks"]`) of the node `i`. -/
def poutG (g : Graph) (i : Nat) : List Nat :=
  match idToNode g i with
  | some n => n.pout
  | none => []

/-- Does the node pass a class filter?  `None` admits everything
(`NotationGraph.children`: `if class_filter is None ... elif
child.class_name in class_filter`). -/
def matchesFilter (filter : Option (List String)) (n : Node) : Bool :=
  match filter with
  | none => true
  | some cs => cs.contains n.className

/-- `NotationGraph.children` (graph.py): the out-neighbours of a node,
restricted by the class filter; ids that are not in the id index are
silently skipped; asking for a node that is not in the graph raises. -/
def childrenNodes (g : Graph) (i : Nat) (filter : Option (List String)) :
    Except Err (List Node) :=
  match idToNode g i with
  | none => .error .valueErr
  | some parent =>
    .ok (parent.outlinks.filterMap (fun cid =>
      match idToNode g cid with
      | none => none
      | some c => if matchesFilter filter c then some c else none))

/-- `NotationGraph.parents` (graph.py): the in-neighbours of a node,
restricted by the class filter. -/
def parentsNodes (g : Graph) (i : Nat) (filter : Option (List String)) :
    Except Err (List Node) :=
  match idToNode g i with
  | none => .error .valueErr
  | some child =>
    .ok (child.inlinks.filterMap (fun pid =>
      match idToNode g pid with
      | none => none
      | some p => if matchesFilter filter p then some p else none))

/-- The loop of `NotationGraph.descendants` (graph.py).  The source keeps a
`queue.Queue` and, for each child of the dequeued node, evaluates
`child_id not in queue`.  `queue.Queue` supports neither `__contains__` nor
iteration, so in Python this membership test raises `TypeError` as soon as
the first child is reached; a dequeued node with no children just ends the
iteration.  The accumulator collects every dequeued node other than the
start node, in dequeue order. -/
def descendantsLoop (g : Graph) (start : Nat) (filter : Option (List String)) :
    List Nat → List Nat → Except Err (List Nat)
  | [], acc => .ok acc.reverse
  | cur :: rest, acc =>
    let acc' := if cur ≠ start then cur :: acc else acc
    match childrenNodes g cur filter with
    | .error e => .error e
    | .ok [] => descendantsLoop g start filter rest acc'
    | .ok (_ :: _) => .error .typeErr

/-- `NotationGraph.descendants` (graph.py): starts the queue with the given
node.  Returns the ids of the collected descendants. -/
def descendants (g : Graph) (i : Nat) (filter : Option (List String)) :
    Except Err (List Nat) :=
  descendantsLoop g i filter [i] []

/-- Modelled from the spec: `descendants/ancestors(node, classFilter?)` is the
"breadth-first closure over children/parents respectively, excluding the
start node, de-duplicating by id, filter applied at each expansion step".
This is the reference behaviour the code is compared against (the
`mung.node` module is not part of the supplied sources, but this definition
models the spec, not that module).  Fuel bounds the search; `fuel` larger
than the number of edges is always enough on acyclic inputs. -/
def specBfsClosure (g : Graph) (start : Nat) (filter : Option (List String)) :
    Nat → List Nat → List Nat → List Nat
  | 0, _, acc => acc.reverse
  | _ + 1, [], acc => acc.reverse
  | fuel + 1, cur :: rest, acc =>
    let cs : List Nat := match childrenNodes g cur filter with
      | .ok cs => cs.map (fun c => c.id)
      | .error _ => []
    let fresh := cs.filter (fun c => ¬ (c = start ∨ c ∈ acc ∨ c ∈ rest))
    specBfsClosure g start filter fuel (rest ++ fresh)
      (if cur ≠ start ∧ cur ∉ acc then cur :: acc else acc)

/-! ### Stable sorts

Python `sorted` is stable.  `insertAsc key` inserts before the first element
with a strictly larger key, so the fold below is a stable ascending
insertion sort; `insertDesc` is the descending counterpart used for
`sorted(..., reverse=True)`. -/

/-- Stable insertion into an ascending list (ties keep the incoming element
first, matching Python sort stability). -/
def insertAsc (key : Node → ℚ) (x : Node) : List Node → List Node
  | [] => [x]
  | y :: ys => if key x ≤ key y then x :: y :: ys else y :: insertAsc key x ys

/-- Stable ascending sort by a rational key (Python `sorted(..., key=...)`). -/
def sortAscBy (key : Node → ℚ) (l : List Node) : List Node :=
  l.foldr (insertAsc key) []

/-- Python `max(items, key=...)` keeps the first maximal element. -/
def pyMaxByLeft (x : Node) (xs : List Node) : Node :=
  xs.foldl (fun best c => if c.left > best.left then c else best) x

/-- Python `min` of a nonempty list of rationals. -/
def pyMinList (x : ℚ) (xs : List ℚ) : ℚ :=
  xs.foldl min x

/-- Python `max` of a nonempty list of rationals. -/
def pyMaxList (x : ℚ) (xs : List ℚ) : ℚ :=
  xs.foldl max x

/-! ### C2: `descendants` -/

/-- A two-node graph: notehead 0 with a stem child 1 (edge 0 → 1). -/
def exGraphC2 : Graph :=
  [⟨0, "noteheadFull", 0, 0, 10, 10, [], [1], [], []⟩,
   ⟨1, "stem", 0, 12, 40, 16, [0], [], [], []⟩]

/-- C2: the claim says `descendants(node, class_filter)` returns the
breadth-first closure over outlinks (here `[1]`, as `specBfsClosure`
computes).  The code instead evaluates `child_id not in queue` on a
`queue.Queue` object, which raises `TypeError` the moment the dequeued node
has any child passing the filter, so `descendants` fails on every graph with
at least one edge from the start node.  (`ancestors` correctly tests
membership in `queue.queue`.) -/
theorem descendants_typeerror_on_any_child :
    descendants exGraphC2 0 none = .error .typeErr ∧
    (childrenNodes exGraphC2 0 none).map (fun l => l.map (fun n => n.id)) =
      .ok [1] ∧
    specBfsClosure exGraphC2 0 none 4 [0] [] = [1] := by
  refine ⟨rfl, rfl, rfl⟩

/-! ### Numerals (`ClassNamesConstants.Numerals`) -/

/-- The ten numeral class names (`InferenceEngineConstants.NUMERALS`). -/
def NUMERAL_CLASSES : List String :=
  ["numeral0", "numeral1", "numeral2", "numeral3", "numeral4",
   "numeral5", "numeral6", "numeral7", "numeral8", "numeral9"]

/-- The digit denoted by a numeral class name
(`Numerals.interpret`'s `numeral_to_digit` table). -/
def numeralDigit (c : String) : Option Nat :=
  if c = "numeral0" then some 0
  else if c = "numeral1" then some 1
  else if c = "numeral2" then some 2
  else if c = "numeral3" then some 3
  else if c = "numeral4" then some 4
  else if c = "numeral5" then some 5
  else if c = "numeral6" then some 6
  else if c = "numeral7" then some 7
  else if c = "numeral8" then some 8
  else if c = "numeral9" then some 9
  else none

/-- The digit-accumulating loop of `Numerals.interpret`
(`result = result * 10 + current_num`, `None` aborts). -/
def interpretDigits (acc : Nat) : List String → Option Nat
  | [] => some acc
  | c :: cs =>
    match numeralDigit c with
    | none => none
    | some d => interpretDigits (acc * 10 + d) cs

/-- `ClassNamesConstants.Numerals.interpret`: an empty list yields `None`,
otherwise the names are read as base-10 digits. -/
def numeralsInterpret (ns : List String) : Option Nat :=
  match ns with
  | [] => none
  | _ => interpretDigits 0 ns

/-- `OnsetsInferenceEngine.interpret_numerals`: raises if some member is not
a numeral, then sorts by the left edge and reads the digits. -/
def interpretNumerals (ns : List Node) : Except Err (Option Nat) :=
  if ns.all (fun n => NUMERAL_CLASSES.contains n.className) then
    .ok (numeralsInterpret ((sortAscBy (fun n => (n.left : ℚ)) ns).map
      (fun n => n.className)))
  else .error .valueErr

/-! ### C7: `_compute_duration_modifier` -/

/-- Notehead class names (`InferenceEngineConstants.NOTEHEAD_CLASS_NAMES`). -/
def NOTEHEAD_CLASSES : List String :=
  ["noteheadFull", "noteheadHalf", "noteheadWhole",
   "noteheadFullSmall", "noteheadHalfSmall"]

/-- Lines 182–194 of onsets_inference.py: the tuple's count, read from its
numeral children left to right, with the fallback of counting the notehead
parents of the tuple when the numeral reading yields `None`. -/
def tupleCountOf (g : Graph) (t : Nat) : Except Err Nat := do
  let numerals ← childrenNodes g t (some NUMERAL_CLASSES)
  let tn ← interpretNumerals (sortAscBy (fun n => (n.left : ℚ)) numerals)
  match tn with
  | some n => pure n
  | none => do
    let nhs ← parentsNodes g t (some NOTEHEAD_CLASSES)
    pure nhs.length

/-- The spec's tuple-count → duration-multiplier table
({2: 3/2, 3: 2/3, 4: 4/3, 5: 4/5, 6: 2/3, 7: 8/7, 10: 4/5}). -/
def tupleTable (n : Nat) : Option ℚ :=
  if n = 2 then some (3/2)
  else if n = 3 then some (2/3)
  else if n = 4 then some (4/3)
  else if n = 5 then some (4/5)
  else if n = 6 then some (2/3)
  else if n = 7 then some (8/7)
  else if n = 10 then some (4/5)
  else none

/-- `OnsetsInferenceEngine._compute_duration_modifier`: tuple multiplier
(if-chain of lines 199–229) times the augmentation-dot multiplier
accumulated as `1 + Σ (1/2)^(i+1)` over the attached dots. -/
def computeDurationModifier (g : Graph) (nh : Nat) : Except Err ℚ := do
  let tuples ← childrenNodes g nh (some ["tuple"])
  if tuples.length > 1 then
    .error .valueErr
  else do
    let dm : ℚ ←
      match tuples.head? with
      | none => pure 1
      | some t => do
        let n ← tupleCountOf g t.id
        if n = 2 then pure (3/2 : ℚ)
        else if n = 3 then pure (2/3 : ℚ)
        else if n = 4 then pure (4/3 : ℚ)
        else if n = 5 then pure (4/5 : ℚ)
        else if n = 6 then pure (2/3 : ℚ)
        else if n = 7 then pure (8/7 : ℚ)
        else if n = 10 then pure (4/5 : ℚ)
        else .error .notImplErr
    let ddots ← childrenNodes g nh (some ["augmentationDot"])
    let dot := (List.range ddots.length).foldl
      (fun acc i => acc + (1/2 : ℚ) ^ (i + 1)) 1
    pure (dm * dot)

/-- Computation rule for `Except` bind, used to push hypotheses about
sub-computations through the monadic definitions. -/
theorem ok_bind {α β : Type} (a : α) (f : α → Except Err β) :
    (Except.ok a : Except Err α) >>= f = f a := rfl

/-- Computation rule for `Except` bind on errors. -/
theorem error_bind {α β : Type} (e : Err) (f : α → Except Err β) :
    (Except.error e : Except Err α) >>= f = .error e := rfl

/-- `pure` on `Except` is `Except.ok`. -/
theorem pure_eq_ok {α : Type} (a : α) :
    (pure a : Except Err α) = .ok a := rfl

/-- The augmentation-dot loop computes the closed form `2 − 2^(−k)`. -/
theorem dotFold_closed (k : Nat) :
    (List.range k).foldl (fun acc i => acc + (1/2 : ℚ) ^ (i + 1)) 1 =
      2 - (1/2 : ℚ) ^ k := by
  induction k with
  | zero => norm_num
  | succ k ih =>
    rw [List.range_succ, List.foldl_append, ih]
    simp only [List.foldl_cons, List.foldl_nil]
    rw [pow_succ]
    ring

/-- C7: for a notehead (or rest) with attached augmentation dots `ddots` and
tuple children `tuples`, `_compute_duration_modifier` returns exactly
`T(n) · (2 − 2^(−k))` where `k` is the number of dots and `T` is the fixed
tuple table (`T = 1` with no tuple); a tuple count outside the table fails
as unsupported (`NotImplementedError`), and more than one attached tuple
raises a `ValueError`. -/
theorem computeDurationModifier_spec (g : Graph) (nh : Nat)
    (tuples ddots : List Node)
    (htup : childrenNodes g nh (some ["tuple"]) = .ok tuples)
    (hdot : childrenNodes g nh (some ["augmentationDot"]) = .ok ddots) :
    (tuples = [] →
      computeDurationModifier g nh = .ok (2 - (1/2 : ℚ) ^ ddots.length)) ∧
    (∀ t n, tuples = [t] → tupleCountOf g t.id = .ok n →
      computeDurationModifier g nh =
        (match tupleTable n with
         | some m => .ok (m * (2 - (1/2 : ℚ) ^ ddots.length))
         | none => .error .notImplErr)) ∧
    (tuples.length > 1 → computeDurationModifier g nh = .error .valueErr) := by
  unfold computeDurationModifier
  rw [htup, ok_bind]
  refine ⟨?_, ?_, ?_⟩
  · rintro rfl
    rw [if_neg (by norm_num)]
    simp only [List.head?_nil, pure_eq_ok, ok_bind, hdot, dotFold_closed]
    rw [one_mul]
  · rintro t n rfl hn
    rw [if_neg (by norm_num)]
    simp only [List.head?_cons, hn, ok_bind]
    unfold tupleTable
    split_ifs <;>
      simp only [pure_eq_ok, ok_bind, hdot, dotFold_closed, error_bind]
  · intro hlen
    rw [if_pos hlen]

/-- Witness graph for C7: notehead 0 inside a triplet (tuple 1 with numeral
child 4 reading "3") carrying two augmentation dots 2 and 3. -/
def wGraphC7 : Graph :=
  [{ id := 0, className := "noteheadFull", outlinks := [1, 2, 3] },
   { id := 1, className := "tuple", inlinks := [0], outlinks := [4] },
   { id := 2, className := "augmentationDot", inlinks := [0] },
   { id := 3, className := "augmentationDot", inlinks := [0] },
   { id := 4, className := "numeral3", inlinks := [1] }]

/-- Witness for C7: the double-dotted triplet notehead gets modifier
`(2/3) · (2 − 1/4) = 7/6`. -/
theorem computeDurationModifier_spec_witness :
    computeDurationModifier wGraphC7 0 = .ok (7/6 : ℚ) := by
  have h := (computeDurationModifier_spec wGraphC7 0
      [{ id := 1, className := "tuple", inlinks := [0], outlinks := [4] }]
      [{ id := 2, className := "augmentationDot", inlinks := [0] },
       { id := 3, className := "augmentationDot", inlinks := [0] }]
      rfl rfl).2.1
      { id := 1, className := "tuple", inlinks := [0], outlinks := [4] }
      3 rfl rfl
  rw [h]
  norm_num [tupleTable]

/-! ### C3: `interpret_time_signature` -/

/-- `InferenceEngineConstants.TIME_SIGNATURE_MEMBERS`: the common and
cut-common glyphs plus the ten numerals.  Note that the separator glyph
`characterOther` (`LETTER_OTHER`) is *not* in this set. -/
def TIME_SIG_MEMBER_CLASSES : List String :=
  ["timeSigCommon", "timeSigCutCommon"] ++ NUMERAL_CLASSES

/-- Modelled from the spec: the "pairwise vertical bounding-box Dice
overlap".  The helper `bounding_box_dice_coefficient` lives in `mung.node`,
which is not among the supplied sources; the spec describes the quantity as
a Dice coefficient of the members' vertical extents. -/
def diceVertical (a b : Node) : ℚ :=
  let ha := (a.bottom : ℚ) - a.top
  let hb := (b.bottom : ℚ) - b.top
  let ov := max 0 (min (a.bottom : ℚ) b.bottom - max (a.top : ℚ) b.top)
  if ha + hb = 0 then 0 else 2 * ov / (ha + hb)

/-- Python `max(range(len(l)), key=lambda i: l[i])` keeps the first maximal
index; `pyArgmaxAux i bi bv rest` scans `rest` whose head has index `i`,
with current best index `bi` of value `bv`. -/
def pyArgmaxAux : Nat → Nat → ℚ → List ℚ → Nat
  | _, bi, _, [] => bi
  | i, bi, bv, y :: ys =>
    if y > bv then pyArgmaxAux (i + 1) i y ys
    else pyArgmaxAux (i + 1) bi bv ys

/-- `OnsetsInferenceEngine.interpret_time_signature`
(onsets_inference.py lines 1113–1247), with the threshold argument kept as
the `Optional` it is in the source: the class-level default 0.8 is *never*
substituted for a missing argument, so the branch that compares the minimum
overlap against the threshold hits a `float < None` comparison, which
raises `TypeError` in Python. -/
def interpretTimeSignature (g : Graph) (ts : Nat) (threshold : Option ℚ) :
    Except Err ℚ := do
  let members0 ← childrenNodes g ts (some TIME_SIG_MEMBER_CLASSES)
  let members := sortAscBy (fun n => (n.top : ℚ)) members0
  if members.isEmpty then .error .graphErr
  else do
    let isWhole := members.any (fun m => m.className == "timeSigCommon")
    let isAllaBreve := members.any (fun m => m.className == "timeSigCutCommon")
    if isWhole || isAllaBreve then pure (4 : ℚ)
    else do
      let hasLetterOther :=
        (members.filter (fun m => m.className == "characterOther")).length > 0
      let isFractionLike ←
        if hasLetterOther then pure true
        else if members.length < 2 then pure false
        else
          -- `for _i_m, m1 in enumerate(members[:-1]): for m2 in members[_i_m:]`:
          -- the inner slice starts at m1 itself, so each element is also
          -- paired with itself (those pairs have overlap 1 and never move
          -- the minimum).
          let overlaps := (members.dropLast.enum).flatMap
            (fun p => (members.drop p.1).map (fun m2 => diceVertical p.2 m2))
          match overlaps with
          | [] => .error .valueErr
          | o :: os =>
            -- `min(vertical_overlaps) < fractional_vertical_iou_threshold`:
            -- comparing a float against None raises TypeError.
            match threshold with
            | none => .error .typeErr
            | some th => pure (decide (pyMinList o os < th))
      let numerals0 ← childrenNodes g ts (some NUMERAL_CLASSES)
      let numerals := sortAscBy (fun n => (n.top : ℚ)) numerals0
      if ¬ isFractionLike then
        if numerals.isEmpty then .error .graphErr
        else do
          match ← interpretNumerals numerals with
          | none => .error .typeErr  -- Fraction(None) raises TypeError
          | some beats => pure (beats : ℚ)
      else do
        let numeralsTopdown :=
          sortAscBy (fun c => ((c.top : ℚ) + c.bottom) / 2) numerals
        -- the second average below uses c2.top where the first uses c1.top,
        -- a slip kept verbatim from the source
        let gaps := (numeralsTopdown.zip numeralsTopdown.tail).map
          (fun p => (((p.2.bottom : ℚ) + p.2.top) / 2) -
            (((p.1.bottom : ℚ) + p.2.top) / 2))
        match gaps with
        | [] => .error .valueErr  -- max over an empty range raises ValueError
        | gh :: gt => do
          let largestGapIdx := pyArgmaxAux 1 0 gh gt + 1
          let numerator := numerals.take largestGapIdx
          let denominator := numerals.drop largestGapIdx
          let bc ← interpretNumerals numerator
          let bu ← interpretNumerals denominator
          match bc, bu with
          | some bcv, some buv =>
            if buv = 0 then .error .valueErr  -- Fraction(x, 0): ZeroDivisionError
            else pure ((bcv : ℚ) * 4 / buv)
          | _, _ => .error .typeErr  -- Fraction(None, ...) raises TypeError

/-- A "4 over 4" time signature: node 10 with two vertically separated
numeral-4 members. -/
def tsGraphA : Graph :=
  [{ id := 10, className := "timeSignature", outlinks := [11, 12] },
   { id := 11, className := "numeral4", top := 0, left := 0, bottom := 10,
     right := 10, inlinks := [10] },
   { id := 12, className := "numeral4", top := 20, left := 0, bottom := 30,
     right := 10, inlinks := [10] }]

/-- A time signature with one numeral 3 and a `characterOther` separator
glyph member. -/
def tsGraphB : Graph :=
  [{ id := 20, className := "timeSignature", outlinks := [21, 22] },
   { id := 21, className := "numeral3", top := 0, left := 0, bottom := 30,
     right := 10, inlinks := [20] },
   { id := 22, className := "characterOther", top := 12, left := 0,
     bottom := 18, right := 10, inlinks := [20] }]

/-- C3: called without an explicit threshold on a clearly fractional "4 over
4" signature, `interpret_time_signature` raises `TypeError` (the claimed
default 0.8 is never substituted for the `None` argument) instead of
classifying it fraction-like; the same call with the threshold passed
explicitly yields the claimed 4 beats; and a signature with a
`characterOther` separator member is *not* treated as fraction-like (the
member list is filtered through `TIME_SIGNATURE_MEMBERS`, which does not
contain `characterOther`), so its single numeral is read as a whole-beat
count. -/
theorem interpretTimeSignature_default_threshold_bug :
    interpretTimeSignature tsGraphA 10 none = .error .typeErr ∧
    interpretTimeSignature tsGraphA 10 (some (4/5)) = .ok 4 ∧
    interpretTimeSignature tsGraphB 20 none = .ok 3 := by
  refine ⟨rfl, ?_, rfl⟩
  unfold interpretTimeSignature
  simp only [childrenNodes, idToNode, tsGraphA, matchesFilter,
    TIME_SIG_MEMBER_CLASSES, NUMERAL_CLASSES, sortAscBy, insertAsc,
    ok_bind, pure_eq_ok, List.find?, List.filterMap, List.isEmpty,
    List.any, List.dropLast, List.enum, List.enumFrom, List.zip,
    List.zipWith, List.tail, List.take, List.drop, List.foldr,
    List.flatMap, List.reverse, List.reverseAux, Nat.reduceBEq,
    String.reduceEq, List.contains, List.elem, Bool.or_false,
    Bool.false_or, Bool.or_true, Bool.true_or, beq_self_eq_true]
  norm_num [diceVertical, pyMinList, pyArgmaxAux, interpretNumerals,
    numeralsInterpret, interpretDigits, numeralDigit, ok_bind, pure_eq_ok,
    List.take, List.drop, List.filter, List.zipWith, List.map, List.length,
    sortAscBy, insertAsc, List.foldr, List.foldl, beq_iff_eq,
    NUMERAL_CLASSES, List.contains, List.elem, List.all]
  intro _ _
  simp only [String.reduceBEq, String.reduceEq, if_true, if_false,
    reduceIte, ok_bind, pure_eq_ok]
  norm_num

/-! ### C9: the pitch-inference state -/

/-- `PitchInferenceEngineState` (pitch_inference.py): the per-staff scoped
state.  `currentClef` stores the class name of the clef node in force (the
source stores the node itself but only ever reads its `class_name`);
accidental maps are association lists in insertion order. -/
structure PitchState where
  basePitch : Option Int := none
  basePitchStep : Option Nat := none
  basePitchOctave : Option Int := none
  currentClef : Option String := none
  currentDeltaSteps : Option (List Int) := none
  clefDeltaShift : Int := 0
  keyAccidentals : List (Int × String) := []
  inlineAccidentals : List (Int × String) := []
deriving DecidableEq, Repr

/-- Association-list lookup for the accidental maps. -/
def alookupStr (l : List (Int × String)) (k : Int) : Option String :=
  (l.find? (fun kv => kv.1 == k)).map (fun kv => kv.2)

/-- `InferenceEngineConstants.CLEF_CHANGE_DELTA` (constants.py). -/
def clefChangeDelta (fromClef toClef : String) : Option Int :=
  if fromClef = "gClef" then
    if toClef = "gClef" then some 0
    else if toClef = "cClef" then some 6
    else if toClef = "fClef" then some 12
    else none
  else if fromClef = "cClef" then
    if toClef = "gClef" then some (-6)
    else if toClef = "cClef" then some 0
    else if toClef = "fClef" then some 6
    else none
  else if fromClef = "fClef" then
    if toClef = "gClef" then some (-12)
    else if toClef = "cClef" then some (-6)
    else if toClef = "fClef" then some 0
    else none
  else none

/-- `PitchInferenceEngineState.accidental`: the semitone modification for a
staffline delta; the key map is consulted mod 7, the inline map at the
exact delta, and an inline entry overrides the key entry ("natural" resets
to 0, an unrecognized value leaves the key modification in place). -/
def accidentalMod (s : PitchState) (delta : Int) : Int :=
  let stepDelta := delta.emod 7
  let keyMod : Int :=
    match alookupStr s.keyAccidentals stepDelta with
    | some v =>
      if v = "sharp" then 1
      else if v = "double_sharp" then 2
      else if v = "flat" then -1
      else if v = "double_flat" then -2
      else 0
    | none => 0
  match alookupStr s.inlineAccidentals delta with
  | some v =>
    if v = "natural" then 0
    else if v = "sharp" then 1
    else if v = "double_sharp" then 2
    else if v = "flat" then -1
    else if v = "double_flat" then -2
    else keyMod
  | none => keyMod

/-- `PitchInferenceEngineState.pitch`: the MIDI code for a staffline delta;
Python `%` and `//` on possibly negative deltas are `Int.emod`/`Int.fdiv`.
An uninitialized state (base pitch or delta steps still `None`) raises. -/
def pitch (s : PitchState) (delta0 : Int) : Except Err Int :=
  let delta := delta0 + s.clefDeltaShift
  let deltaStep := delta.emod 7
  let deltaOctave := delta.fdiv 7
  match s.basePitch, s.currentDeltaSteps with
  | some bp, some steps =>
    .ok (bp + (steps.take (deltaStep.toNat + 1)).sum + deltaOctave * 12 +
      accidentalMod s delta)
  | _, _ => .error .typeErr

/-- `PitchInferenceEngineState.init_base_pitch_default_staffline`: clef
tables for G/F/C clefs (a missing clef defaults to gClef); when a clef was
already in force, the key map is re-indexed mod 7 and the inline map
shifted by the clef-pair transposition delta. -/
def initBasePitchDefaultStaffline (s : PitchState) (clef : Option Node) :
    Except Err PitchState := do
  let init : Int × List Int × Nat × Int ←
    match clef with
    | none => pure (71, [0, 1, 2, 2, 1, 2, 2, 2], 6, 4)
    | some c =>
      if c.className = "gClef" then pure (71, [0, 1, 2, 2, 1, 2, 2, 2], 6, 4)
      else if c.className = "fClef" then pure (50, [0, 2, 1, 2, 2, 2, 1, 2], 1, 3)
      else if c.className = "cClef" then pure (60, [0, 2, 2, 1, 2, 2, 2, 1], 0, 4)
      else .error .valueErr
  let s ←
    match s.currentClef, clef with
    | some fromClef, some c =>
      match clefChangeDelta fromClef c.className with
      | none => .error .keyErr
      | some td =>
        if td ≠ 0 then
          pure { s with
            keyAccidentals :=
              s.keyAccidentals.map (fun kv => ((kv.1 + td).emod 7, kv.2)),
            inlineAccidentals :=
              s.inlineAccidentals.map (fun kv => (kv.1 + td, kv.2)) }
        else pure s
    | some _, none => .error .attrErr  -- `clef.class_name` on None
    | none, _ => pure s
  let (newBp, newSteps, newStep, newOct) := init
  pure { s with
    basePitch := some newBp,
    basePitchStep := some newStep,
    basePitchOctave := some newOct,
    currentClef := clef.map (fun c => c.className),
    currentDeltaSteps := some newSteps }

/-- `PitchInferenceEngineState.init_base_pitch`: default-staffline
initialization followed by recording the clef displacement
(`current_clef_delta_shift = -1 * delta`). -/
def initBasePitch (s : PitchState) (clef : Option Node) (delta : Int) :
    Except Err PitchState := do
  let s1 ← initBasePitchDefaultStaffline s clef
  pure { s1 with clefDeltaShift := -1 * delta }

/-- A gClef symbol node attached at the default position. -/
def gClefNode : Node := { id := 100, className := "gClef" }

/-- The state after `init_base_pitch` for a default-position gClef. -/
def gClefDefaultState : PitchState :=
  { basePitch := some 71, basePitchStep := some 6, basePitchOctave := some 4,
    currentClef := some "gClef",
    currentDeltaSteps := some [0, 1, 2, 2, 1, 2, 2, 2],
    clefDeltaShift := 0, keyAccidentals := [], inlineAccidentals := [] }

/-- C9: initializing the pitch state for a default-position gClef with no
key signature and no inline accidentals makes `pitch(0)` (the centre
staffline) return 71; registering a sharp key accidental for the diatonic
step class of delta 0 makes `pitch(0)` return 72. -/
theorem pitch_gclef_center_line :
    initBasePitch {} (some gClefNode) 0 = .ok gClefDefaultState ∧
    pitch gClefDefaultState 0 = .ok 71 ∧
    pitch { gClefDefaultState with keyAccidentals := [(0, "sharp")] } 0 =
      .ok 72 := by
  decide

/-! ### C6 / C10: `process_ties`

Python dicts keyed by node id with `Fraction` values become association
lists in insertion order. -/

/-- A Python dict `{id: Fraction}` in insertion order. -/
abbrev Table : Type := List (Nat × ℚ)

/-- Dict lookup. -/
def tlookup (t : Table) (k : Nat) : Option ℚ :=
  (t.find? (fun kv => kv.1 == k)).map (fun kv => kv.2)

/-- Dict keys, in insertion order. -/
def tkeys (t : Table) : List Nat :=
  t.map Prod.fst

/-- Dict assignment `t[k] = v`: overwrites in place or appends a new key. -/
def tset (t : Table) (k : Nat) (v : ℚ) : Table :=
  if (tkeys t).contains k then
    t.map (fun kv => if kv.1 = k then (k, v) else kv)
  else t ++ [(k, v)]

/-- Dict deletion `del t[k]`: raises `KeyError` when the key is absent. -/
def tdel (t : Table) (k : Nat) : Except Err Table :=
  if (tkeys t).contains k then
    .ok (t.filter (fun kv => ¬ kv.1 == k))
  else .error .keyErr

/-- Stable descending insertion by key value: ties keep the incoming
element first, matching `sorted(..., reverse=True)` stability. -/
def insertDescKey (val : Nat → ℚ) (x : Nat) : List Nat → List Nat
  | [] => [x]
  | y :: ys =>
    if val x ≥ val y then x :: y :: ys else y :: insertDescKey val x ys

/-- `sorted(keys, key=val, reverse=True)` as a stable insertion sort. -/
def sortKeysDesc (val : Nat → ℚ) (ks : List Nat) : List Nat :=
  ks.foldr (insertDescKey val) []

/-- The notehead classes a tie can join
(`NOTEHEAD_FULL`, `NOTEHEAD_HALF`, `NOTEHEAD_WHOLE`). -/
def TIE_NOTE_CLASSES : List String :=
  ["noteheadFull", "noteheadHalf", "noteheadWhole"]

/-- `__get_tie_notes` inside `process_ties`: the notehead parents of the
tie; zero or more than two noteheads raise `NotationGraphError`, one
notehead is returned alone, two are returned sorted left-to-right
(Python's stable sort keeps the original order on equal `left`). -/
def getTieNotes (g : Graph) (tieId : Nat) : Except Err (List Node) := do
  let notes ← parentsNodes g tieId (some TIE_NOTE_CLASSES)
  match notes with
  | [] => .error .graphErr
  | [n] => .ok [n]
  | [a, b] => .ok (if b.left < a.left then [b, a] else [a, b])
  | _ => .error .graphErr

/-- The local variables of `process_ties` that hold tables: the two caller
arguments (never written by the source) and the two deep copies the
function builds and mutates. -/
structure TieVars where
  durations : Table
  onsets : Table
  newDurations : Table
  newOnsets : Table
deriving DecidableEq

/-- One iteration of the `for k in sorted(onsets, ...)` loop of
`process_ties`: collect the tie children of `k`, pick the rightmost tie
when there are several, resolve the tie's noteheads, and when `k` is the
left note of a two-note tie, add the right note's current duration to the
left note's and delete the right note's onset entry. -/
def tieStep (g : Graph) (vars : TieVars) (k : Nat) : Except Err TieVars := do
  let ties ← childrenNodes g k (some ["tie"])
  match ties with
  | [] => .ok vars
  | t0 :: trest =>
    let tie := if trest.isEmpty then t0 else pyMaxByLeft t0 trest
    match idToNode g k with
    | none => .error .keyErr
    | some n => do
      let tieNotes ← getTieNotes g tie.id
      match tieNotes with
      | [l, r] =>
        if l.id = n.id then
          match tlookup vars.newDurations l.id,
              tlookup vars.newDurations r.id with
          | some dl, some dr => do
            let nd := tset vars.newDurations l.id (dl + dr)
            let no ← tdel vars.newOnsets r.id
            .ok { vars with newDurations := nd, newOnsets := no }
          | _, _ => .error .keyErr
        else .ok vars
      | _ => .ok vars

/-- The loop of `process_ties` over the keys of the *argument* `onsets`
dict, sorted by onset value, right to left; the deep copies initialize the
mutable tables to the argument values. -/
def processTiesVars (g : Graph) (durations onsets : Table) :
    Except Err TieVars :=
  let vars : TieVars :=
    { durations := durations, onsets := onsets,
      newDurations := durations, newOnsets := onsets }
  let ks := sortKeysDesc (fun k => (tlookup onsets k).getD 0) (tkeys onsets)
  ks.foldlM (tieStep g) vars

/-- `OnsetsInferenceEngine.process_ties`: run the loop, then rebuild
`new_durations` as `{k: new_durations[k] for k in new_onsets}` (a missing
key raises `KeyError`), and return the pair. -/
def processTies (g : Graph) (durations onsets : Table) :
    Except Err (Table × Table) := do
  let vars ← processTiesVars g durations onsets
  let nd ← (tkeys vars.newOnsets).mapM (fun k =>
    match tlookup vars.newDurations k with
    | some v => Except.ok ((k, v) : Nat × ℚ)
    | none => Except.error Err.keyErr)
  .ok (nd, vars.newOnsets)

/-- Destructuring a successful `Except` bind. -/
theorem bind_ok_iff {α β : Type} (x : Except Err α) (f : α → Except Err β)
    (b : β) : (x >>= f = .ok b) ↔ ∃ a, x = .ok a ∧ f a = .ok b := by
  cases x with
  | error e =>
    constructor
    · intro h
      exact absurd h (by simp [error_bind])
    · rintro ⟨a, ha, _⟩
      exact absurd ha (by simp)
  | ok a =>
    constructor
    · intro h
      exact ⟨a, rfl, h⟩
    · rintro ⟨a2, ha, hf⟩
      rw [ok_bind]
      cases ha
      exact hf

/-- A step of the tie loop never writes the caller's `durations`/`onsets`
dicts: only the two deep copies are updated. -/
theorem tieStep_frame (g : Graph) (v : TieVars) (k : Nat) (v2 : TieVars)
    (h : tieStep g v k = .ok v2) :
    v2.durations = v.durations ∧ v2.onsets = v.onsets := by
  unfold tieStep at h
  rw [bind_ok_iff] at h
  obtain ⟨ties, _, h⟩ := h
  match ties with
  | [] =>
    cases h
    exact ⟨rfl, rfl⟩
  | t0 :: trest =>
    simp only at h
    cases hk : idToNode g k with
    | none =>
      rw [hk] at h
      cases h
    | some n =>
      rw [hk] at h
      rw [bind_ok_iff] at h
      obtain ⟨notes, _, h⟩ := h
      match notes with
      | [] => cases h; exact ⟨rfl, rfl⟩
      | [a] => cases h; exact ⟨rfl, rfl⟩
      | a :: b :: c :: rest => cases h; exact ⟨rfl, rfl⟩
      | [l, r] =>
        simp only at h
        by_cases hl : l.id = n.id
        · rw [if_pos hl] at h
          cases hdl : tlookup v.newDurations l.id with
          | none => rw [hdl] at h; cases hdr : tlookup v.newDurations r.id <;>
              rw [hdr] at h <;> cases h
          | some dl =>
            rw [hdl] at h
            cases hdr : tlookup v.newDurations r.id with
            | none => rw [hdr] at h; cases h
            | some dr =>
              rw [hdr] at h
              simp only at h
              rw [bind_ok_iff] at h
              obtain ⟨no, _, h⟩ := h
              cases h
              exact ⟨rfl, rfl⟩
        · rw [if_neg hl] at h
          cases h
          exact ⟨rfl, rfl⟩

/-- The tie loop as a whole never writes the caller's dicts. -/
theorem foldTies_frame (g : Graph) (ks : List Nat) (v v2 : TieVars)
    (h : ks.foldlM (tieStep g) v = .ok v2) :
    v2.durations = v.durations ∧ v2.onsets = v.onsets := by
  induction ks generalizing v with
  | nil =>
    simp only [List.foldlM_nil] at h
    cases h
    exact ⟨rfl, rfl⟩
  | cons k ks ih =>
    rw [List.foldlM_cons, bind_ok_iff] at h
    obtain ⟨v1, h1, h2⟩ := h
    have hf := tieStep_frame g v k v1 h1
    have hf2 := ih v1 h2
    exact ⟨hf2.1.trans hf.1, hf2.2.trans hf.2⟩

/-- C10: `process_ties` never mutates its `durations`/`onsets` arguments —
every write in its body targets the two tables created by `deepcopy`, so
the variables bound to the caller's dicts still hold their original values
when the function returns (the returned tables are the freshly built
copies, not the arguments). -/
theorem processTies_no_argument_mutation (g : Graph)
    (durations onsets : Table) (vars : TieVars)
    (h : processTiesVars g durations onsets = .ok vars) :
    vars.durations = durations ∧ vars.onsets = onsets := by
  unfold processTiesVars at h
  exact foldTies_frame g _ _ vars h

/-! #### Table lemmas -/

theorem tlookup_cons (kv : Nat × ℚ) (rest : List (Nat × ℚ)) (k : Nat) :
    tlookup (kv :: rest) k =
      if kv.1 = k then some kv.2 else tlookup rest k := by
  by_cases h : kv.1 = k
  · unfold tlookup
    rw [List.find?_cons_of_pos _ (by simpa using h), if_pos h]
    rfl
  · unfold tlookup
    rw [List.find?_cons_of_neg _ (by simpa using h), if_neg h]

theorem tlookup_isSome_iff_mem (t : Table) (k : Nat) :
    (tlookup t k).isSome ↔ k ∈ tkeys t := by
  induction t with
  | nil => simp [tlookup, tkeys]
  | cons kv rest ih =>
    rw [tlookup_cons]
    by_cases hk : kv.1 = k
    · simp [tkeys, hk]
    · rw [if_neg hk]
      simp only [tkeys, List.map_cons, List.mem_cons]
      rw [show ((tlookup rest k).isSome = true ↔ k ∈ tkeys rest) from ih]
      constructor
      · exact fun h => Or.inr h
      · rintro (h | h)
        · exact absurd h.symm hk
        · exact h

theorem tlookup_tset_other (t : Table) (k : Nat) (v : ℚ) (k2 : Nat)
    (hne : k2 ≠ k) : tlookup (tset t k v) k2 = tlookup t k2 := by
  unfold tset
  by_cases hc : (tkeys t).contains k
  · rw [if_pos hc]
    clear hc
    induction t with
    | nil => rfl
    | cons kv rest ih =>
      simp only [List.map_cons]
      rw [tlookup_cons, tlookup_cons]
      by_cases hk : kv.1 = k
      · have h2 : ¬ k = k2 := fun h => hne h.symm
        simp [hk, h2, ih]
      · by_cases hk2 : kv.1 = k2
        · simp [hk2, hne]
        · simp [hk, hk2, ih]
  · rw [if_neg hc]
    unfold tlookup
    rw [List.find?_append]
    have : List.find? (fun kv => kv.1 == k2) [(k, v)] = none := by
      rw [List.find?_cons_of_neg _ (by simpa using fun h => hne h.symm)]
      rfl
    rw [this]
    cases List.find? (fun kv => kv.1 == k2) t <;> rfl

theorem tlookup_tset_self (t : Table) (k : Nat) (v : ℚ)
    (hk : k ∈ tkeys t) : tlookup (tset t k v) k = some v := by
  unfold tset
  have hc : (tkeys t).contains k := by simpa using hk
  rw [if_pos hc]
  clear hc
  induction t with
  | nil => simp [tkeys] at hk
  | cons kv rest ih =>
    simp only [List.map_cons]
    rw [tlookup_cons]
    by_cases h1 : kv.1 = k
    · simp [h1]
    · have hk' : k ∈ tkeys rest := by
        simp only [tkeys, List.map_cons, List.mem_cons] at hk
        exact hk.resolve_left (fun h => h1 h.symm)
      simp [h1, ih hk']

theorem tkeys_tset_mem (t : Table) (k : Nat) (v : ℚ) (hk : k ∈ tkeys t) :
    tkeys (tset t k v) = tkeys t := by
  unfold tset
  have hc : (tkeys t).contains k := by simpa using hk
  rw [if_pos hc]
  unfold tkeys
  rw [List.map_map]
  apply List.map_congr_left
  intro kv _
  by_cases h1 : kv.1 = k
  · simp [h1]
  · simp [h1]

theorem tlookup_filter_ne (t : Table) (rid k : Nat) (hne : k ≠ rid) :
    tlookup (t.filter (fun kv => ¬ kv.1 == rid)) k = tlookup t k := by
  induction t with
  | nil => rfl
  | cons kv rest ih =>
    by_cases h1 : kv.1 = rid
    · rw [List.filter_cons_of_neg (by simpa using h1), tlookup_cons,
        if_neg (fun h => hne (h.symm.trans h1))]
      exact ih
    · rw [List.filter_cons_of_pos (by simpa using h1), tlookup_cons,
        tlookup_cons]
      by_cases h2 : kv.1 = k
      · rw [if_pos h2, if_pos h2]
      · rw [if_neg h2, if_neg h2]
        exact ih

theorem tlookup_filter_self (t : Table) (rid : Nat) :
    tlookup (t.filter (fun kv => ¬ kv.1 == rid)) rid = none := by
  induction t with
  | nil => rfl
  | cons kv rest ih =>
    by_cases h1 : kv.1 = rid
    · rw [List.filter_cons_of_neg (by simpa using h1)]
      exact ih
    · rw [List.filter_cons_of_pos (by simpa using h1), tlookup_cons,
        if_neg h1]
      exact ih

theorem mem_tkeys_filter (t : Table) (rid k : Nat) :
    k ∈ tkeys (t.filter (fun kv => ¬ kv.1 == rid)) ↔
      k ∈ tkeys t ∧ k ≠ rid := by
  unfold tkeys
  constructor
  · intro h
    obtain ⟨kv, hkv, rfl⟩ := List.mem_map.mp h
    have := List.mem_filter.mp hkv
    refine ⟨List.mem_map.mpr ⟨kv, this.1, rfl⟩, by simpa using this.2⟩
  · rintro ⟨h, hne⟩
    obtain ⟨kv, hkv, rfl⟩ := List.mem_map.mp h
    exact List.mem_map.mpr ⟨kv, List.mem_filter.mpr ⟨hkv, by simpa using hne⟩,
      rfl⟩

/-! #### Stable-sort permutation lemmas -/

theorem insertDescKey_perm (val : Nat → ℚ) (x : Nat) (l : List Nat) :
    List.Perm (insertDescKey val x l) (x :: l) := by
  induction l with
  | nil => rfl
  | cons y ys ih =>
    unfold insertDescKey
    by_cases h : val x ≥ val y
    · rw [if_pos h]
    · rw [if_neg h]
      exact (ih.cons y).trans (List.Perm.swap x y ys)

theorem sortKeysDesc_perm (val : Nat → ℚ) (ks : List Nat) :
    List.Perm (sortKeysDesc val ks) ks := by
  induction ks with
  | nil => rfl
  | cons k ks ih =>
    unfold sortKeysDesc
    rw [List.foldr_cons]
    exact (insertDescKey_perm val k _).trans (ih.cons k)

/-! #### Behaviour of one tie-loop step -/

theorem tieStep_skip_no_ties (g : Graph) (k : Nat)
    (h : childrenNodes g k (some ["tie"]) = .ok []) (v : TieVars) :
    tieStep g v k = .ok v := by
  unfold tieStep
  rw [h]
  rfl

theorem tieStep_skip_right (g : Graph) (l r t : Node)
    (hr : idToNode g r.id = some r)
    (hc : childrenNodes g r.id (some ["tie"]) = .ok [t])
    (hn : getTieNotes g t.id = .ok [l, r]) (hne : l.id ≠ r.id)
    (v : TieVars) : tieStep g v r.id = .ok v := by
  unfold tieStep
  rw [hc]
  simp only [ok_bind, List.isEmpty_nil, if_true, hr, hn]
  rw [if_neg hne]

theorem tieStep_skip_one_note (g : Graph) (k0 : Nat) (n0 t nt : Node)
    (hk : idToNode g k0 = some n0)
    (hc : childrenNodes g k0 (some ["tie"]) = .ok [t])
    (hn : getTieNotes g t.id = .ok [nt]) (v : TieVars) :
    tieStep g v k0 = .ok v := by
  unfold tieStep
  rw [hc]
  simp only [ok_bind, List.isEmpty_nil, if_true, hk, hn]

theorem tieStep_error_tie (g : Graph) (k0 : Nat) (n0 t : Node) (e : Err)
    (hk : idToNode g k0 = some n0)
    (hc : childrenNodes g k0 (some ["tie"]) = .ok [t])
    (hn : getTieNotes g t.id = .error e) (v : TieVars) :
    tieStep g v k0 = .error e := by
  unfold tieStep
  rw [hc]
  simp only [ok_bind, List.isEmpty_nil, if_true, hk, hn]
  rfl

theorem tieStep_merge (g : Graph) (l r t : Node)
    (hl : idToNode g l.id = some l)
    (hc : childrenNodes g l.id (some ["tie"]) = .ok [t])
    (hn : getTieNotes g t.id = .ok [l, r]) (v : TieVars) (dl dr : ℚ)
    (hdl : tlookup v.newDurations l.id = some dl)
    (hdr : tlookup v.newDurations r.id = some dr)
    (hro : r.id ∈ tkeys v.newOnsets) :
    tieStep g v l.id = .ok { v with
      newDurations := tset v.newDurations l.id (dl + dr),
      newOnsets := v.newOnsets.filter (fun kv => ¬ kv.1 == r.id) } := by
  unfold tieStep
  rw [hc]
  simp only [ok_bind, List.isEmpty_nil, if_true, hl, hn]
  simp only [hdl, hdr]
  unfold tdel
  rw [if_pos (by simpa using hro)]
  rfl

/-! #### Behaviour of the whole tie loop -/

theorem foldTies_all_skip (g : Graph) (ks : List Nat) (v : TieVars)
    (hskip : ∀ k ∈ ks, ∀ w, tieStep g w k = .ok w) :
    ks.foldlM (tieStep g) v = .ok v := by
  induction ks generalizing v with
  | nil => rfl
  | cons k ks ih =>
    rw [List.foldlM_cons, hskip k (List.mem_cons_self k ks) v, ok_bind]
    exact ih v (fun k2 hk2 => hskip k2 (List.mem_cons_of_mem k hk2))

theorem foldTies_single (g : Graph) (ks : List Nat) (v1 : TieVars)
    (k0 : Nat) (hmem : k0 ∈ ks) (hnd : ks.Nodup)
    (hskip : ∀ k ∈ ks, k ≠ k0 → ∀ w, tieStep g w k = .ok w) :
    ∀ v, tieStep g v k0 = .ok v1 → ks.foldlM (tieStep g) v = .ok v1 := by
  induction ks with
  | nil => cases hmem
  | cons k ks ih =>
    intro v hstep
    rw [List.foldlM_cons]
    by_cases hk : k = k0
    · subst hk
      rw [hstep, ok_bind]
      apply foldTies_all_skip
      intro k2 hk2 w
      have hne : k2 ≠ k := fun h => (List.nodup_cons.mp hnd).1 (h ▸ hk2)
      exact hskip k2 (List.mem_cons_of_mem k hk2) hne w
    · rw [hskip k (List.mem_cons_self k ks) hk v, ok_bind]
      exact ih ((List.mem_cons.mp hmem).resolve_left (fun h => hk h.symm))
        (List.nodup_cons.mp hnd).2
        (fun k2 hk2 hne => hskip k2 (List.mem_cons_of_mem k hk2) hne) v hstep

theorem foldTies_error (g : Graph) (ks : List Nat)
    (k0 : Nat) (e : Err) (hmem : k0 ∈ ks)
    (hskip : ∀ k ∈ ks, k ≠ k0 → ∀ w, tieStep g w k = .ok w)
    (herr : ∀ w, tieStep g w k0 = .error e) :
    ∀ v, ks.foldlM (tieStep g) v = .error e := by
  induction ks with
  | nil => cases hmem
  | cons k ks ih =>
    intro v
    rw [List.foldlM_cons]
    by_cases hk : k = k0
    · subst hk
      rw [herr v]
      rfl
    · rw [hskip k (List.mem_cons_self k ks) hk v, ok_bind]
      exact ih ((List.mem_cons.mp hmem).resolve_left (fun h => hk h.symm))
        (fun k2 hk2 hne => hskip k2 (List.mem_cons_of_mem k hk2) hne) v

/-- The rebuild of `new_durations` over the final onset keys succeeds when
every key has a duration, and leaves lookups unchanged on those keys. -/
theorem filterDurations_spec (ndSrc : Table) (ks : List Nat)
    (hall : ∀ k ∈ ks, (tlookup ndSrc k).isSome) :
    ∃ nd : Table,
      ks.mapM (fun k => match tlookup ndSrc k with
        | some v => Except.ok ((k, v) : Nat × ℚ)
        | none => Except.error Err.keyErr) = .ok nd ∧
      tkeys nd = ks ∧
      (∀ k ∈ ks, tlookup nd k = tlookup ndSrc k) ∧
      (∀ k, k ∉ ks → tlookup nd k = none) := by
  induction ks with
  | nil => exact ⟨[], rfl, rfl, by simp, fun k _ => rfl⟩
  | cons k ks ih =>
    obtain ⟨nd, hnd, hkeys, hmemeq, hout⟩ :=
      ih (fun k2 hk2 => hall k2 (List.mem_cons_of_mem k hk2))
    obtain ⟨vk, hvk⟩ := Option.isSome_iff_exists.mp
      (hall k (List.mem_cons_self k ks))
    refine ⟨(k, vk) :: nd, ?_, ?_, ?_, ?_⟩
    · simp only [List.mapM_cons, hvk, hnd, ok_bind, pure_eq_ok]
    · show List.map Prod.fst ((k, vk) :: nd) = k :: ks
      rw [List.map_cons]
      exact congrArg (k :: ·) hkeys
    · intro k2 hk2
      rw [tlookup_cons]
      by_cases h2 : k = k2
      · subst h2
        rw [if_pos rfl, hvk]
      · rw [if_neg h2]
        exact hmemeq k2 ((List.mem_cons.mp hk2).resolve_left
          (fun h => h2 h.symm))
    · intro k2 hk2
      rw [tlookup_cons, if_neg (fun h => hk2 (by
        rw [← h]; exact List.mem_cons_self k ks))]
      exact hout k2 (fun h => hk2 (List.mem_cons_of_mem k h))

/-- C6: behaviour of `process_ties`.  (1) For a tie `t` joining exactly the
two notes `l` (left) and `r` (right), both carrying onsets, the returned
tables give the left note the sum of the two durations and no longer
contain the right note's onset, while every other onset entry is
unchanged.  (2) A tie with zero attached notes is a hard error
(`NotationGraphError`).  (3) A tie with more than two attached notes is a
hard error.  (4) A tie with exactly one attached note is tolerated: no
merge happens and the onset table is returned unchanged.  Ties are
processed right-to-left by current onset (the loop runs over
`sorted(onsets, key=..., reverse=True)`), which the proofs account for by
making no assumption about where the tie's notes sit in that order. -/
theorem processTies_spec (g : Graph) :
    (∀ (durations onsets : Table) (l r t : Node) (dl dr : ℚ),
      idToNode g l.id = some l →
      idToNode g r.id = some r →
      childrenNodes g l.id (some ["tie"]) = .ok [t] →
      childrenNodes g r.id (some ["tie"]) = .ok [t] →
      getTieNotes g t.id = .ok [l, r] →
      l.id ≠ r.id →
      (∀ k ∈ tkeys onsets, k ≠ l.id → k ≠ r.id →
        childrenNodes g k (some ["tie"]) = .ok []) →
      (tkeys onsets).Nodup →
      l.id ∈ tkeys onsets → r.id ∈ tkeys onsets →
      tlookup durations l.id = some dl →
      tlookup durations r.id = some dr →
      (∀ k ∈ tkeys onsets, (tlookup durations k).isSome) →
      ∃ nd no,
        processTies g durations onsets = .ok (nd, no) ∧
        tlookup nd l.id = some (dl + dr) ∧
        tlookup no r.id = none ∧
        r.id ∉ tkeys nd ∧
        (∀ k2, k2 ≠ r.id → tlookup no k2 = tlookup onsets k2)) ∧
    (∀ (durations onsets : Table) (k0 : Nat) (n0 t : Node),
      idToNode g k0 = some n0 →
      childrenNodes g k0 (some ["tie"]) = .ok [t] →
      parentsNodes g t.id (some TIE_NOTE_CLASSES) = .ok [] →
      k0 ∈ tkeys onsets →
      (∀ k ∈ tkeys onsets, k ≠ k0 →
        childrenNodes g k (some ["tie"]) = .ok []) →
      processTies g durations onsets = .error .graphErr) ∧
    (∀ (durations onsets : Table) (k0 : Nat) (n0 t a b c : Node)
      (rest : List Node),
      idToNode g k0 = some n0 →
      childrenNodes g k0 (some ["tie"]) = .ok [t] →
      parentsNodes g t.id (some TIE_NOTE_CLASSES) =
        .ok (a :: b :: c :: rest) →
      k0 ∈ tkeys onsets →
      (∀ k ∈ tkeys onsets, k ≠ k0 →
        childrenNodes g k (some ["tie"]) = .ok []) →
      processTies g durations onsets = .error .graphErr) ∧
    (∀ (durations onsets : Table) (k0 : Nat) (n0 t nt : Node),
      idToNode g k0 = some n0 →
      childrenNodes g k0 (some ["tie"]) = .ok [t] →
      parentsNodes g t.id (some TIE_NOTE_CLASSES) = .ok [nt] →
      k0 ∈ tkeys onsets →
      (∀ k ∈ tkeys onsets, k ≠ k0 →
        childrenNodes g k (some ["tie"]) = .ok []) →
      (∀ k ∈ tkeys onsets, (tlookup durations k).isSome) →
      ∃ nd,
        processTies g durations onsets = .ok (nd, onsets) ∧
        (∀ k ∈ tkeys onsets, tlookup nd k = tlookup durations k)) := by
  refine ⟨?_, ?_, ?_, ?_⟩
  · -- (1) the two-note merge
    intro durations onsets l r t dl dr hl hr hcl hcr hnotes hne hothers
      hnodup hlmem hrmem hdl hdr hsome
    have hperm := sortKeysDesc_perm (fun k => (tlookup onsets k).getD 0)
      (tkeys onsets)
    have hskip : ∀ k ∈ sortKeysDesc (fun k => (tlookup onsets k).getD 0)
        (tkeys onsets), k ≠ l.id → ∀ w, tieStep g w k = .ok w := by
      intro k hk hkne w
      have hkmem : k ∈ tkeys onsets := hperm.mem_iff.mp hk
      by_cases hkr : k = r.id
      · subst hkr
        exact tieStep_skip_right g l r t hr hcr hnotes hne w
      · exact tieStep_skip_no_ties g k (hothers k hkmem hkne hkr) w
    have hstep := tieStep_merge g l r t hl hcl hnotes
      ⟨durations, onsets, durations, onsets⟩ dl dr hdl hdr hrmem
    have hfold := foldTies_single g
      (sortKeysDesc (fun k => (tlookup onsets k).getD 0) (tkeys onsets))
      _ l.id (hperm.mem_iff.mpr hlmem) (hperm.nodup_iff.mpr hnodup) hskip
      ⟨durations, onsets, durations, onsets⟩ hstep
    have hvars : processTiesVars g durations onsets = .ok
        { durations := durations, onsets := onsets,
          newDurations := tset durations l.id (dl + dr),
          newOnsets := onsets.filter (fun kv => ¬ kv.1 == r.id) } := hfold
    have hldur : l.id ∈ tkeys durations :=
      (tlookup_isSome_iff_mem durations l.id).mp (hsome l.id hlmem)
    have hall : ∀ k ∈ tkeys (onsets.filter (fun kv => ¬ kv.1 == r.id)),
        (tlookup (tset durations l.id (dl + dr)) k).isSome := by
      intro k hk
      obtain ⟨hkmem, hkne⟩ := (mem_tkeys_filter onsets r.id k).mp hk
      by_cases hkl : k = l.id
      · rw [hkl, tlookup_tset_self durations l.id (dl + dr) hldur]
        rfl
      · rw [tlookup_tset_other durations l.id (dl + dr) k hkl]
        exact hsome k hkmem
    obtain ⟨nd, hmapm, hkeys, hmemeq, hout⟩ := filterDurations_spec
      (tset durations l.id (dl + dr))
      (tkeys (onsets.filter (fun kv => ¬ kv.1 == r.id))) hall
    refine ⟨nd, onsets.filter (fun kv => ¬ kv.1 == r.id), ?_, ?_, ?_, ?_, ?_⟩
    · unfold processTies
      rw [hvars]
      simp only [ok_bind]
      rw [hmapm]
      rfl
    · have hlmem2 : l.id ∈ tkeys (onsets.filter (fun kv => ¬ kv.1 == r.id)) :=
        (mem_tkeys_filter onsets r.id l.id).mpr ⟨hlmem, hne⟩
      rw [hmemeq l.id hlmem2]
      exact tlookup_tset_self durations l.id (dl + dr) hldur
    · exact tlookup_filter_self onsets r.id
    · intro hmem2
      rw [hkeys] at hmem2
      exact ((mem_tkeys_filter onsets r.id r.id).mp hmem2).2 rfl
    · intro k2 hk2
      exact tlookup_filter_ne onsets r.id k2 hk2
  · -- (2) zero notes attached to the tie: hard error
    intro durations onsets k0 n0 t hk hc hp hk0mem hothers
    have htie : getTieNotes g t.id = .error .graphErr := by
      unfold getTieNotes
      rw [hp]
      rfl
    have hperm := sortKeysDesc_perm (fun k => (tlookup onsets k).getD 0)
      (tkeys onsets)
    have hvars : processTiesVars g durations onsets = .error .graphErr := by
      unfold processTiesVars
      exact foldTies_error g _ k0 .graphErr (hperm.mem_iff.mpr hk0mem)
        (fun k hkmem hkne w => tieStep_skip_no_ties g k
          (hothers k (hperm.mem_iff.mp hkmem) hkne) w)
        (fun w => tieStep_error_tie g k0 n0 t .graphErr hk hc htie w) _
    unfold processTies
    rw [hvars]
    rfl
  · -- (3) more than two notes attached to the tie: hard error
    intro durations onsets k0 n0 t a b c rest hk hc hp hk0mem hothers
    have htie : getTieNotes g t.id = .error .graphErr := by
      unfold getTieNotes
      rw [hp]
      rfl
    have hperm := sortKeysDesc_perm (fun k => (tlookup onsets k).getD 0)
      (tkeys onsets)
    have hvars : processTiesVars g durations onsets = .error .graphErr := by
      unfold processTiesVars
      exact foldTies_error g _ k0 .graphErr (hperm.mem_iff.mpr hk0mem)
        (fun k hkmem hkne w => tieStep_skip_no_ties g k
          (hothers k (hperm.mem_iff.mp hkmem) hkne) w)
        (fun w => tieStep_error_tie g k0 n0 t .graphErr hk hc htie w) _
    unfold processTies
    rw [hvars]
    rfl
  · -- (4) a single note attached to the tie is tolerated: no merge
    intro durations onsets k0 n0 t nt hk hc hp hk0mem hothers hsome
    have htie : getTieNotes g t.id = .ok [nt] := by
      unfold getTieNotes
      rw [hp]
      rfl
    have hperm := sortKeysDesc_perm (fun k => (tlookup onsets k).getD 0)
      (tkeys onsets)
    have hvars : processTiesVars g durations onsets = .ok
        { durations := durations, onsets := onsets,
          newDurations := durations, newOnsets := onsets } := by
      unfold processTiesVars
      apply foldTies_all_skip
      intro k hkmem w
      by_cases hkk : k = k0
      · rw [hkk]
        exact tieStep_skip_one_note g k0 n0 t nt hk hc htie w
      · exact tieStep_skip_no_ties g k
          (hothers k (hperm.mem_iff.mp hkmem) hkk) w
    obtain ⟨nd, hmapm, hkeys, hmemeq, hout⟩ := filterDurations_spec
      durations (tkeys onsets) hsome
    refine ⟨nd, ?_, hmemeq⟩
    unfold processTies
    rw [hvars]
    simp only [ok_bind]
    rw [hmapm]
    rfl

/-- Left note of the witness tie (a quarter note at onset 0). -/
def wTieL : Node :=
  { id := 1, className := "noteheadFull", left := 0, outlinks := [3] }

/-- Right note of the witness tie (a quarter note at onset 1). -/
def wTieR : Node :=
  { id := 2, className := "noteheadFull", left := 10, outlinks := [3] }

/-- The witness tie, attached to both notes. -/
def wTieT : Node := { id := 3, className := "tie", left := 2, inlinks := [1, 2] }

/-- Witness graph: two tied quarter notes. -/
def wGraphTie : Graph := [wTieL, wTieR, wTieT]

/-- Witness durations: one beat each. -/
def wDurTie : Table := [(1, 1), (2, 1)]

/-- Witness onsets: beats 0 and 1. -/
def wOnsTie : Table := [(1, 0), (2, 1)]

/-- Witness for C6: merging the two tied quarter notes leaves one entry for
the left note with duration `1 + 1` and onset 0, and the right note's id is
gone from the returned onset table. -/
theorem processTies_spec_witness :
    (processTies wGraphTie wDurTie wOnsTie).map
      (fun p => (tlookup p.1 wTieL.id, tlookup p.2 wTieR.id,
        decide (wTieR.id ∈ tkeys p.1), tlookup p.2 wTieL.id)) =
      .ok (some ((1 : ℚ) + 1), none, false, some 0) := by
  obtain ⟨nd, no, heq, h1, h2, h3, h4⟩ :=
    (processTies_spec wGraphTie).1 wDurTie wOnsTie wTieL wTieR wTieT 1 1
      rfl rfl rfl rfl rfl (by decide) (by decide) (by decide) (by decide)
      (by decide) rfl rfl (by decide)
  rw [heq]
  have h5 := h4 wTieL.id (by decide)
  simp only [Except.map, h1, h2, h5, decide_eq_false h3]
  rfl

/-- The final variable state of the witness run of `process_ties`. -/
def wVarsTie : TieVars :=
  { durations := wDurTie, onsets := wOnsTie,
    newDurations := tset wDurTie 1 ((1 : ℚ) + 1),
    newOnsets := wOnsTie.filter (fun kv => ¬ kv.1 == 2) }

/-- Witness for C10: the witness run performs a merge yet leaves both
argument dicts untouched. -/
theorem processTies_no_argument_mutation_witness :
    wVarsTie.durations = wDurTie ∧ wVarsTie.onsets = wOnsTie :=
  processTies_no_argument_mutation wGraphTie wDurTie wOnsTie wVarsTie
    (by rfl)

/-! ### C1 / C5: the breadth-first onset propagation of `onsets()` -/

/-- `PrecedenceGraphNode` (precedence_graph_node.py), with the node
references of `inlinks`/`outlinks` replaced by `node_id`s into the
precedence graph (in `_infer_precedence_from_annotations` the nodes are
stored in a dict keyed by unique id, so identity and id coincide).
`obj` is the id of the wrapped symbol `Node`, when there is one. -/
structure PNode where
  nodeId : Nat
  obj : Option Nat := none
  duration : ℚ := 0
  onset : Option ℚ := none
  inlinks : List Nat := []
  outlinks : List Nat := []
deriving DecidableEq, Repr

/-- The precedence graph, in construction order. -/
abbrev PGraph : Type := List PNode

/-- Resolve a precedence-node id (the `p_nodes` dict). -/
def pLookup (pg : PGraph) (i : Nat) : Option PNode :=
  pg.find? (fun n => n.nodeId == i)

/-- In-place mutation of the precedence node with id `i`. -/
def pUpdate (pg : PGraph) (i : Nat) (f : PNode → PNode) : PGraph :=
  pg.map (fun n => if n.nodeId = i then f n else n)

/-- `BaseOnsetsInferenceStrategy` (onsets_inference.py) with its defaults. -/
structure OnsetsStrategy where
  permissiveDesynchronization : Bool := true
  precedenceOnlyForObjectsConnectedToStaff : Bool := true
  permissive : Bool := true
  linkSinksToSources : Bool := true
deriving DecidableEq, Repr

/-- The loop state of `onsets()`: the mutable precedence nodes, the
append-only queue with its read index `qstart`, the result table, and the
keys of `delayed_prec_nodes`. -/
structure BfsState where
  pg : PGraph
  queue : List Nat
  qstart : Nat
  onsets : Table
  delayed : List Nat
deriving DecidableEq, Repr

/-- Outcome of one iteration of the `while (len(queue) - qstart) > 0` loop:
the loop continues, exits via `break`, exits because the queue is
exhausted, or raises. -/
inductive StepOutcome where
  | running (s : BfsState)
  | halted (s : BfsState)
  | finished (s : BfsState)
  | failed (e : Err)
deriving DecidableEq, Repr

/-- Lines 1296–1303: advance `qstart` and append every outlink of the
dequeued node that is not yet anywhere in the queue (the membership test
runs against the whole queue, processed prefix included). -/
def advanceQueue (s : BfsState) (q : PNode) : BfsState :=
  { s with
      qstart := s.qstart + 1
      queue := q.outlinks.foldl
        (fun acc o => if o ∈ acc then acc else acc ++ [o]) s.queue }

/-- Lines 1351–1356: store the resolved onset on the precedence node and,
when it wraps a symbol, record it in the result table (the side-effecting
write of `onset_beats` into the symbol's data dict is outside this state). -/
def assignOnset (s1 : BfsState) (q : PNode) (onset : ℚ) : BfsState :=
  let pg2 := pUpdate s1.pg q.nodeId (fun n => { n with onset := some onset })
  match q.obj with
  | some oid => { s1 with pg := pg2, onsets := tset s1.onsets oid onset }
  | none => { s1 with pg := pg2 }

/-- One iteration of the BFS loop of `OnsetsInferenceEngine.onsets()`
(lines 1291–1356).  Noteworthy renderings of Python behaviour:
`if q.onset > 0: break` halts the walk without recording the onset;
`q in delayed_prec_nodes` compares a `PrecedenceGraphNode` object against
the dict's integer keys and is therefore always `False`, so a node is
re-delayed without limit; `onsets[q.obj.id]` and
`delayed_prec_nodes[q.obj.id]` raise `AttributeError` when `obj` is
`None`; `min`/`max` of an empty proposal list raise `ValueError`. -/
def onsetsStep (strategy : OnsetsStrategy) (s : BfsState) : StepOutcome :=
  if h : s.qstart < s.queue.length then
    match pLookup s.pg (s.queue.get ⟨s.qstart, h⟩) with
    | none => .failed .keyErr
    | some q =>
      let s1 := advanceQueue s q
      match q.onset with
      | some onv =>
        if onv > 0 then .halted s1
        else
          match q.obj with
          | none => .failed .attrErr
          | some oid => .running { s1 with onsets := tset s1.onsets oid onv }
      | none =>
        match q.inlinks.mapM (fun i => pLookup s.pg i) with
        | none => .failed .keyErr
        | some precQs =>
          match precQs.mapM (fun pq => pq.onset) with
          | none =>
            -- `None in prec_onsets`: delay the node.
            let s2 := { s1 with queue := s1.queue ++ [q.nodeId] }
            -- `if q in delayed_prec_nodes` is always False in Python
            -- (object vs int keys), so the break is unreachable:
            if false then .halted s2
            else
              match q.obj with
              | none => .failed .attrErr
              | some oid => .running { s2 with delayed := s2.delayed ++ [oid] }
          | some onsetVals =>
            match (onsetVals.zip (precQs.map (fun pq => pq.duration))).map
                (fun pr => pr.1 + pr.2) with
            | [] => .failed .valueErr
            | p :: ps =>
              if pyMinList p ps ≠ pyMaxList p ps then
                if strategy.permissiveDesynchronization then
                  .running (assignOnset s1 q (pyMaxList p ps))
                else .failed .valueErr
              else .running (assignOnset s1 q p)
  else .finished s

/-- Lines 1266–1267 of `onsets()`: the returned source nodes (exactly the
nodes with no precedence inlinks) are seeded with onset 0. -/
def seedRoots (pg : PGraph) : PGraph :=
  pg.map (fun n => if n.inlinks.isEmpty then { n with onset := some 0 } else n)

/-- The loop of `onsets()` run to completion on fuel (the Python loop may
not terminate on stuck cycles, because the re-delay break is unreachable;
`none` means the fuel ran out). -/
def onsetsRun (strategy : OnsetsStrategy) :
    Nat → BfsState → Option (Except Err Table)
  | 0, _ => none
  | fuel + 1, s =>
    match onsetsStep strategy s with
    | .running s2 => onsetsRun strategy fuel s2
    | .halted s2 => some (.ok s2.onsets)
    | .finished s2 => some (.ok s2.onsets)
    | .failed e => some (.error e)

/-- `onsets()` from line 1265 on, taking the precedence graph built by
`_infer_precedence_from_annotations` as input: seed the sources (the nodes
without inlinks) with onset 0, queue exactly those nodes, and walk. -/
def onsetsFromGraph (strategy : OnsetsStrategy) (pg : PGraph) (fuel : Nat) :
    Option (Except Err Table) :=
  let pg2 := seedRoots pg
  let queue := (pg2.filter (fun n => n.inlinks.isEmpty)).map
    (fun n => n.nodeId)
  onsetsRun strategy fuel
    { pg := pg2, queue := queue, qstart := 0, onsets := [], delayed := [] }

/-- A precedence node that already carries the positive resolved onset 1 and
wraps the symbol with id 10. -/
def cexNodeC1 : PNode :=
  { nodeId := 0, obj := some 10, duration := 0, onset := some 1 }

/-- A BFS state about to dequeue `cexNodeC1`. -/
def cexBfsC1 : BfsState :=
  { pg := [cexNodeC1], queue := [0], qstart := 0, onsets := [], delayed := [] }

/-- Witness node for the resolved-onset theorem: onset 0, wrapping symbol 5. -/
def wNodeC1 : PNode :=
  { nodeId := 0, obj := some 5, duration := 0, onset := some 0 }

/-- Witness BFS state about to dequeue `wNodeC1`. -/
def wBfsC1 : BfsState :=
  { pg := [wNodeC1], queue := [0], qstart := 0, onsets := [], delayed := [] }

/-- Predecessor for the convergence witness: onset 1, duration 1. -/
def wPredA : PNode :=
  { nodeId := 1, obj := some 11, duration := 1, onset := some 1 }

/-- Predecessor for the convergence witness: onset 2, duration 0. -/
def wPredB : PNode :=
  { nodeId := 2, obj := some 12, duration := 0, onset := some 2 }

/-- Successor for the convergence witness: unresolved, fed by both
predecessors. -/
def wSuccC : PNode :=
  { nodeId := 3, obj := some 13, duration := 0, onset := none,
    inlinks := [1, 2] }

/-- BFS state about to dequeue `wSuccC` with both predecessors resolved. -/
def wBfsC5 : BfsState :=
  { pg := [wPredA, wPredB, wSuccC], queue := [3], qstart := 0, onsets := [],
    delayed := [] }

/-! ### The public mutators of `NotationGraph` (graph.py)

An `.error` models a raised Python exception; the state the exception leaves
behind is not tracked (a raising call never yields a graph here).  All field
functions passed to `update` preserve `id`, so presence of ids is invariant
under them. -/

/-- `add_edge` (graph.py lines 501–526): missing endpoints and half-present
edges raise `NotationGraphError`, a fully-present edge is a no-op, otherwise
`to_id` is appended to the outlinks of `from_id` and `from_id` to the inlinks
of `to_id`. -/
def addEdge (g : Graph) (fromId toId : Nat) : Except Err Graph :=
  match idToNode g fromId, idToNode g toId with
  | none, _ => .error .graphErr
  | some _, none => .error .graphErr
  | some fromNode, some toNode =>
    if toId ∈ fromNode.outlinks then
      if fromId ∈ toNode.inlinks then .ok g
      else .error .graphErr
    else if fromId ∈ toNode.inlinks then .error .graphErr
    else
      .ok (update
        (update g fromId (fun n => { n with outlinks := n.outlinks ++ [toId] }))
        toId (fun n => { n with inlinks := n.inlinks ++ [fromId] }))

/-- `remove_edge` (graph.py lines 380–399): missing endpoints raise
`ValueError`; with `suppress_not_in_list_error` a half- or fully-absent edge
is a no-op, without it `list.remove` raises `ValueError` on the absent side;
otherwise the first occurrence of `to_id` is removed from the outlinks of
`from_id` and of `from_id` from the inlinks of `to_id`. -/
def removeEdge (g : Graph) (fromId toId : Nat) (suppress : Bool) :
    Except Err Graph :=
  match idToNode g fromId, idToNode g toId with
  | none, _ => .error .valueErr
  | some _, none => .error .valueErr
  | some fromNode, some toNode =>
    if suppress = true ∧ (toId ∉ fromNode.outlinks ∨ fromId ∉ toNode.inlinks)
    then .ok g
    else if toId ∉ fromNode.outlinks ∨ fromId ∉ toNode.inlinks then
      .error .valueErr
    else
      .ok (update
        (update g fromId (fun n => { n with outlinks := n.outlinks.erase toId }))
        toId (fun n => { n with inlinks := n.inlinks.erase fromId }))

/-- `remove_edges_for_vertex` (graph.py lines 401–412): `remove_edge` for
every inlink of the node (over a copy of the list), then for every outlink
(over a copy taken after the first loop). -/
def removeEdgesForVertex (g : Graph) (i : Nat) : Except Err Graph :=
  match idToNode g i with
  | none => .error .valueErr
  | some node => do
    let g1 ← node.inlinks.foldlM (fun acc inl => removeEdge acc inl i false) g
    match idToNode g1 i with
    | none => .error .keyErr
    | some node1 =>
      node1.outlinks.foldlM (fun acc outl => removeEdge acc i outl false) g1

/-- `remove_vertex` (graph.py lines 374–378): remove all attachment edges of
the node, then delete the node itself from the node list and the id index. -/
def removeVertex (g : Graph) (i : Nat) : Except Err Graph := do
  let g1 ← removeEdgesForVertex g i
  match idToNode g1 i with
  | none => .error .keyErr
  | some node => .ok (g1.erase node)

/-- `add_precedence_edge` (graph.py lines 528–557): like `add_edge` but on
the precedence-link lists (the `add_precedence_outlinks`/
`add_precedence_inlinks` accessors of `mung.node` are not among the supplied
sources; they are modelled as plain list appends, as the spec describes the
precedence lists). -/
def addPrecedenceEdge (g : Graph) (fromId toId : Nat) : Except Err Graph :=
  match idToNode g fromId, idToNode g toId with
  | none, _ => .error .graphErr
  | some _, none => .error .graphErr
  | some fromNode, some toNode =>
    if toId ∈ fromNode.pout then
      if fromId ∈ toNode.pin then .ok g
      else .error .graphErr
    else if fromId ∈ toNode.pin then .error .graphErr
    else
      .ok (update
        (update g fromId (fun n => { n with pout := n.pout ++ [toId] }))
        toId (fun n => { n with pin := n.pin ++ [fromId] }))

/-- `remove_precedence_edge` (graph.py lines 559–577): like `remove_edge`
but on the precedence-link lists. -/
def removePrecedenceEdge (g : Graph) (fromId toId : Nat) (suppress : Bool) :
    Except Err Graph :=
  match idToNode g fromId, idToNode g toId with
  | none, _ => .error .valueErr
  | some _, none => .error .valueErr
  | some fromNode, some toNode =>
    if suppress = true ∧ (toId ∉ fromNode.pout ∨ fromId ∉ toNode.pin)
    then .ok g
    else if toId ∉ fromNode.pout ∨ fromId ∉ toNode.pin then
      .error .valueErr
    else
      .ok (update
        (update g fromId (fun n => { n with pout := n.pout.erase toId }))
        toId (fun n => { n with pin := n.pin.erase fromId }))

/-- Phase 1 of `remove_from_precedence` (graph.py lines 447–458): for each
precedence-predecessor `p` of `x` (over a copy of the original list), check
the reciprocal outlink (else `ValueError`), then remove `x` from `p`'s
precedence outlinks and `p` from `x`'s precedence inlinks (`list.remove`
raises `ValueError` if `p` is absent there). -/
def rfpPhase1 (x : Nat) (preds : List Nat) (g : Graph) : Except Err Graph :=
  preds.foldlM (fun acc p =>
    match idToNode acc p with
    | none => .error .keyErr
    | some pn =>
      if x ∉ pn.pout then .error .valueErr
      else match idToNode acc x with
        | none => .error .keyErr
        | some xn =>
          if p ∉ xn.pin then .error .valueErr
          else .ok (update
            (update acc p (fun n => { n with pout := n.pout.erase x }))
            x (fun n => { n with pin := n.pin.erase p }))) g

/-- Phase 2 of `remove_from_precedence` (graph.py lines 460–471): for each
precedence-descendant `d` of `x` (over a copy of the original list), check
the reciprocal inlink (else `ValueError`), then remove `x` from `d`'s
precedence inlinks and `d` from `x`'s precedence outlinks. -/
def rfpPhase2 (x : Nat) (descs : List Nat) (g : Graph) : Except Err Graph :=
  descs.foldlM (fun acc d =>
    match idToNode acc d with
    | none => .error .keyErr
    | some dn =>
      if x ∉ dn.pin then .error .valueErr
      else match idToNode acc x with
        | none => .error .keyErr
        | some xn =>
          if d ∉ xn.pout then .error .valueErr
          else .ok (update
            (update acc d (fun n => { n with pin := n.pin.erase x }))
            x (fun n => { n with pout := n.pout.erase d }))) g

/-- Second half of a phase-3 bridging step: append `p` to the precedence
inlinks of `d` unless already present. -/
def rfpBridgeIn (p d : Nat) (acc3 : Graph) : Graph :=
  if p ∈ pinG acc3 d then acc3
  else update acc3 d (fun n => { n with pin := n.pin ++ [p] })

/-- One phase-3 bridging step for the pair `(p, d)`: append `d` to the
precedence outlinks of `p` unless already present, then the reciprocal
inlink (both membership tests read the current state). -/
def rfpBridgeStep (p : Nat) (acc2 : Graph) (d : Nat) : Graph :=
  rfpBridgeIn p d (if d ∈ poutG acc2 p then acc2
    else update acc2 p (fun n => { n with pout := n.pout ++ [d] }))

/-- Phase 3 of `remove_from_precedence` (graph.py lines 473–479): bridge the
removed node by the cross product of its former predecessors and
descendants. -/
def rfpPhase3 (preds descs : List Nat) (g : Graph) : Graph :=
  preds.foldl (fun acc p => descs.foldl (rfpBridgeStep p) acc) g

/-- `remove_from_precedence` (graph.py lines 419–479): look the node up
(`KeyError` when absent), snapshot its precedence inlinks and outlinks,
return unchanged when both are empty, otherwise run the three phases. -/
def removeFromPrecedence (g : Graph) (x : Nat) : Except Err Graph :=
  match idToNode g x with
  | none => .error .keyErr
  | some node =>
    if node.pin.isEmpty ∧ node.pout.isEmpty then .ok g
    else do
      let g1 ← rfpPhase1 x node.pin g
      let g2 ← rfpPhase2 x node.pout g1
      pure (rfpPhase3 node.pin node.pout g2)

/-! ### The reciprocity invariant (spec: "Edge reciprocity invariant") -/

/-- Attachment-edge reciprocity over the nodes of the graph:
`b ∈ a.outlinks ⟺ a ∈ b.inlinks`. -/
def Reciprocal (g : Graph) : Prop :=
  ∀ a ∈ g, ∀ b ∈ g, (b.id ∈ a.outlinks ↔ a.id ∈ b.inlinks)

/-- Precedence-edge reciprocity over the nodes of the graph. -/
def PrecReciprocal (g : Graph) : Prop :=
  ∀ a ∈ g, ∀ b ∈ g, (b.id ∈ a.pout ↔ a.id ∈ b.pin)

/-- Every node id occurs once (the data model of the library: the id → node
dict construction assumes it). -/
def UniqueIds (g : Graph) : Prop :=
  (idsOf g).Nodup

/-- No link list of any node repeats an entry (an edge is stored at most
once per direction). -/
def NodupLinks (g : Graph) : Prop :=
  ∀ n ∈ g, n.inlinks.Nodup ∧ n.outlinks.Nodup ∧ n.pin.Nodup ∧ n.pout.Nodup

/-- The amended consistency notion: unique ids, duplicate-free link lists,
and both reciprocity invariants. -/
def Consistent (g : Graph) : Prop :=
  UniqueIds g ∧ NodupLinks g ∧ Reciprocal g ∧ PrecReciprocal g

/-- One application of a public mutator that returns normally. -/
inductive MutStep : Graph → Graph → Prop where
  | addE {g g' a b} : addEdge g a b = .ok g' → MutStep g g'
  | remE {g g' a b s} : removeEdge g a b s = .ok g' → MutStep g g'
  | remEFV {g g' i} : removeEdgesForVertex g i = .ok g' → MutStep g g'
  | remV {g g' i} : removeVertex g i = .ok g' → MutStep g g'
  | addP {g g' a b} : addPrecedenceEdge g a b = .ok g' → MutStep g g'
  | remP {g g' a b s} : removePrecedenceEdge g a b s = .ok g' → MutStep g g'
  | remFP {g g' i} : removeFromPrecedence g i = .ok g' → MutStep g g'

/-- The counterexample graph: node 0 lists the edge to node 1 twice in its
outlinks, node 1 lists it once.  Membership reciprocity holds. -/
def cexG4 : Graph :=
  [{ id := 0, className := "noteheadFull", outlinks := [1, 1] },
   { id := 1, className := "stem", inlinks := [0] }]

/-- `remove_edge(0, 1)` on `cexG4`: one occurrence removed on each side. -/
def cexG4' : Graph :=
  [{ id := 0, className := "noteheadFull", outlinks := [1] },
   { id := 1, className := "stem", inlinks := [] }]

theorem idToNode_mem_id (g : Graph) (i : Nat) (n : Node)
    (h : idToNode g i = some n) : n ∈ g ∧ n.id = i := by
  unfold idToNode at h
  exact ⟨List.mem_reverse.mp (List.mem_of_find?_eq_some h),
    by simpa using List.find?_some h⟩

theorem mem_idsOf_iff (g : Graph) (i : Nat) :
    i ∈ idsOf g ↔ ∃ n ∈ g, n.id = i := by
  simp [idsOf]

theorem idToNode_isSome_iff (g : Graph) (i : Nat) :
    (idToNode g i).isSome ↔ i ∈ idsOf g := by
  unfold idToNode
  rw [List.find?_isSome, mem_idsOf_iff]
  constructor
  · rintro ⟨n, hn, hp⟩
    exact ⟨n, List.mem_reverse.mp hn, by simpa using hp⟩
  · rintro ⟨n, hn, hp⟩
    exact ⟨n, List.mem_reverse.mpr hn, by simpa using hp⟩

theorem idToNode_eq_of_mem (g : Graph) (hu : UniqueIds g) (n : Node)
    (hn : n ∈ g) : idToNode g n.id = some n := by
  have hsome : (idToNode g n.id).isSome := by
    rw [idToNode_isSome_iff, mem_idsOf_iff]
    exact ⟨n, hn, rfl⟩
  obtain ⟨m, hm⟩ := Option.isSome_iff_exists.mp hsome
  obtain ⟨hmem, hid⟩ := idToNode_mem_id g n.id m hm
  rw [hm, List.inj_on_of_nodup_map hu hmem hn hid]

theorem update_eq_map (g : Graph) (i : Nat) (f : Node → Node) :
    update g i f = g.map (fun n => if n.id = i then f n else n) := rfl

theorem idToNode_update_self (g : Graph) (i : Nat) (f : Node → Node)
    (hf : ∀ n, (f n).id = n.id) :
    idToNode (update g i f) i = (idToNode g i).map f := by
  unfold idToNode update
  rw [← List.map_reverse, List.find?_map]
  have hp : ((fun n : Node => n.id == i) ∘
      (fun n => if n.id = i then f n else n)) = (fun n : Node => n.id == i) := by
    funext n
    by_cases h : n.id = i <;> simp [h, hf]
  rw [hp]
  cases hfind : g.reverse.find? (fun n => n.id == i) with
  | none => rfl
  | some n =>
    have : n.id = i := by simpa using List.find?_some hfind
    simp [this]

theorem idToNode_update_other (g : Graph) (i j : Nat) (f : Node → Node)
    (hf : ∀ n, (f n).id = n.id) (hne : j ≠ i) :
    idToNode (update g i f) j = idToNode g j := by
  unfold idToNode update
  rw [← List.map_reverse, List.find?_map]
  have hp : ((fun n : Node => n.id == j) ∘
      (fun n => if n.id = i then f n else n)) = (fun n : Node => n.id == j) := by
    funext n
    by_cases h : n.id = i <;> simp [h, hf]
  rw [hp]
  cases hfind : g.reverse.find? (fun n => n.id == j) with
  | none => rfl
  | some n =>
    have : n.id = j := by simpa using List.find?_some hfind
    simp [this, hne]

theorem idsOf_update (g : Graph) (i : Nat) (f : Node → Node)
    (hf : ∀ n, (f n).id = n.id) : idsOf (update g i f) = idsOf g := by
  unfold idsOf update
  rw [List.map_map]
  refine List.map_congr_left fun n _ => ?_
  by_cases h : n.id = i <;> simp [h, hf]

theorem mem_update_iff (g : Graph) (i : Nat) (f : Node → Node) (m : Node) :
    m ∈ update g i f ↔ ∃ n ∈ g, (if n.id = i then f n else n) = m := by
  unfold update
  rw [List.mem_map]

theorem idToNode_map (g : Graph) (F : Node → Node) (j : Nat)
    (hF : ∀ n, (F n).id = n.id) :
    idToNode (g.map F) j = (idToNode g j).map F := by
  unfold idToNode
  rw [← List.map_reverse, List.find?_map]
  have hp : ((fun n : Node => n.id == j) ∘ F) = (fun n : Node => n.id == j) := by
    funext n
    simp [hF]
  rw [hp]

theorem idsOf_map (g : Graph) (F : Node → Node)
    (hF : ∀ n, (F n).id = n.id) : idsOf (g.map F) = idsOf g := by
  unfold idsOf
  rw [List.map_map]
  exact List.map_congr_left fun n _ => hF n

theorem update_update_out_in (g : Graph) (a b : Nat)
    (tOut tIn : List Nat → List Nat) :
    update (update g a (fun n => { n with outlinks := tOut n.outlinks }))
      b (fun n => { n with inlinks := tIn n.inlinks }) =
    g.map (fun n =>
      { n with outlinks := if n.id = a then tOut n.outlinks else n.outlinks,
               inlinks := if n.id = b then tIn n.inlinks else n.inlinks }) := by
  unfold update
  rw [List.map_map]
  refine List.map_congr_left fun n _ => ?_
  by_cases hna : n.id = a
  · subst hna
    by_cases hnb : n.id = b
    · subst hnb
      simp
    · simp [hnb]
  · by_cases hnb : n.id = b
    · subst hnb
      simp [hna]
    · simp [hna, hnb]

theorem update_update_pout_pin (g : Graph) (a b : Nat)
    (tPout tPin : List Nat → List Nat) :
    update (update g a (fun n => { n with pout := tPout n.pout }))
      b (fun n => { n with pin := tPin n.pin }) =
    g.map (fun n =>
      { n with pout := if n.id = a then tPout n.pout else n.pout,
               pin := if n.id = b then tPin n.pin else n.pin }) := by
  unfold update
  rw [List.map_map]
  refine List.map_congr_left fun n _ => ?_
  by_cases hna : n.id = a
  · subst hna
    by_cases hnb : n.id = b
    · subst hnb
      simp
    · simp [hnb]
  · by_cases hnb : n.id = b
    · subst hnb
      simp [hna]
    · simp [hna, hnb]

theorem update_update_pin_pout (g : Graph) (a b : Nat)
    (tPin tPout : List Nat → List Nat) :
    update (update g a (fun n => { n with pin := tPin n.pin }))
      b (fun n => { n with pout := tPout n.pout }) =
    g.map (fun n =>
      { n with pout := if n.id = b then tPout n.pout else n.pout,
               pin := if n.id = a then tPin n.pin else n.pin }) := by
  unfold update
  rw [List.map_map]
  refine List.map_congr_left fun n _ => ?_
  by_cases hna : n.id = a
  · subst hna
    by_cases hnb : n.id = b
    · subst hnb
      simp
    · simp [hnb]
  · by_cases hnb : n.id = b
    · subst hnb
      simp [hna]
    · simp [hna, hnb]

theorem consistent_map_out_in (g : Graph) (a b : Nat)
    (tOut tIn : List Nat → List Nat) (hc : Consistent g)
    (htOutNodup : ∀ n : Node, n ∈ g → n.id = a → (tOut n.outlinks).Nodup)
    (htInNodup : ∀ n : Node, n ∈ g → n.id = b → (tIn n.inlinks).Nodup)
    (hiff : ∀ u ∈ g, ∀ v ∈ g,
      ((v.id ∈ if u.id = a then tOut u.outlinks else u.outlinks) ↔
        (u.id ∈ if v.id = b then tIn v.inlinks else v.inlinks))) :
    Consistent (g.map (fun n =>
      { n with outlinks := if n.id = a then tOut n.outlinks else n.outlinks,
               inlinks := if n.id = b then tIn n.inlinks else n.inlinks })) := by
  obtain ⟨hu, hnl, hrec, hprec⟩ := hc
  refine ⟨?_, ?_, ?_, ?_⟩
  · unfold UniqueIds idsOf
    rw [List.map_map]
    exact hu
  · intro m hm
    rw [List.mem_map] at hm
    obtain ⟨n, hn, hmeq⟩ := hm
    subst hmeq
    obtain ⟨h1, h2, h3, h4⟩ := hnl n hn
    refine ⟨?_, ?_, h3, h4⟩
    · by_cases hnb : n.id = b <;> simp [hnb, h1, htInNodup n hn]
    · by_cases hna : n.id = a <;> simp [hna, h2, htOutNodup n hn]
  · intro u' hu' v' hv'
    rw [List.mem_map] at hu' hv'
    obtain ⟨u, hum, hueq⟩ := hu'
    obtain ⟨v, hvm, hveq⟩ := hv'
    subst hueq hveq
    simpa using hiff u hum v hvm
  · intro u' hu' v' hv'
    rw [List.mem_map] at hu' hv'
    obtain ⟨u, hum, hueq⟩ := hu'
    obtain ⟨v, hvm, hveq⟩ := hv'
    subst hueq hveq
    simpa using hprec u hum v hvm

theorem consistent_map_pout_pin (g : Graph) (a b : Nat)
    (tPout tPin : List Nat → List Nat) (hc : Consistent g)
    (htPoutNodup : ∀ n : Node, n ∈ g → n.id = a → (tPout n.pout).Nodup)
    (htPinNodup : ∀ n : Node, n ∈ g → n.id = b → (tPin n.pin).Nodup)
    (hiff : ∀ u ∈ g, ∀ v ∈ g,
      ((v.id ∈ if u.id = a then tPout u.pout else u.pout) ↔
        (u.id ∈ if v.id = b then tPin v.pin else v.pin))) :
    Consistent (g.map (fun n =>
      { n with pout := if n.id = a then tPout n.pout else n.pout,
               pin := if n.id = b then tPin n.pin else n.pin })) := by
  obtain ⟨hu, hnl, hrec, hprec⟩ := hc
  refine ⟨?_, ?_, ?_, ?_⟩
  · unfold UniqueIds idsOf
    rw [List.map_map]
    exact hu
  · intro m hm
    rw [List.mem_map] at hm
    obtain ⟨n, hn, hmeq⟩ := hm
    subst hmeq
    obtain ⟨h1, h2, h3, h4⟩ := hnl n hn
    refine ⟨h1, h2, ?_, ?_⟩
    · by_cases hnb : n.id = b <;> simp [hnb, h3, htPinNodup n hn]
    · by_cases hna : n.id = a <;> simp [hna, h4, htPoutNodup n hn]
  · intro u' hu' v' hv'
    rw [List.mem_map] at hu' hv'
    obtain ⟨u, hum, hueq⟩ := hu'
    obtain ⟨v, hvm, hveq⟩ := hv'
    subst hueq hveq
    simpa using hrec u hum v hvm
  · intro u' hu' v' hv'
    rw [List.mem_map] at hu' hv'
    obtain ⟨u, hum, hueq⟩ := hu'
    obtain ⟨v, hvm, hveq⟩ := hv'
    subst hueq hveq
    simpa using hiff u hum v hvm

theorem node_eq_of_idToNode (g : Graph) (hu : UniqueIds g) (n m : Node)
    (a : Nat) (hn : n ∈ g) (hna : n.id = a) (hfa : idToNode g a = some m) :
    n = m := by
  have h := idToNode_eq_of_mem g hu n hn
  rw [hna, hfa] at h
  exact (Option.some.inj h).symm

theorem consistent_eraseAttach (g : Graph) (a b : Nat) (hc : Consistent g) :
    Consistent (update (update g a
      (fun n => { n with outlinks := n.outlinks.erase b }))
      b (fun n => { n with inlinks := n.inlinks.erase a })) := by
  rw [update_update_out_in g a b (fun l => l.erase b) (fun l => l.erase a)]
  refine consistent_map_out_in g a b (fun l => l.erase b) (fun l => l.erase a)
    hc (fun n hn _ => ((hc.2.1 n hn).2.1).erase _)
    (fun n hn _ => ((hc.2.1 n hn).1).erase _)
    (fun u hum v hvm => ?_)
  have huv := hc.2.2.1 u hum v hvm
  have h2 := (hc.2.1 u hum).2.1
  have h1 := (hc.2.1 v hvm).1
  by_cases hua : u.id = a <;> by_cases hvb : v.id = b <;>
    simp [hua, hvb, h2.mem_erase_iff, h1.mem_erase_iff, huv] <;> simp_all

theorem consistent_appendAttach (g : Graph) (a b : Nat) (hc : Consistent g)
    (fromNode toNode : Node)
    (hfa : idToNode g a = some fromNode) (hfb : idToNode g b = some toNode)
    (hno : b ∉ fromNode.outlinks) (hni : a ∉ toNode.inlinks) :
    Consistent (update (update g a
      (fun n => { n with outlinks := n.outlinks ++ [b] }))
      b (fun n => { n with inlinks := n.inlinks ++ [a] })) := by
  rw [update_update_out_in g a b (fun l => l ++ [b]) (fun l => l ++ [a])]
  refine consistent_map_out_in g a b (fun l => l ++ [b]) (fun l => l ++ [a])
    hc (fun n hn hna => ?_) (fun n hn hnb => ?_) (fun u hum v hvm => ?_)
  · rw [node_eq_of_idToNode g hc.1 n fromNode a hn hna hfa]
    simp [List.nodup_append, (hc.2.1 fromNode
      (idToNode_mem_id g a fromNode hfa).1).2.1, hno]
  · rw [node_eq_of_idToNode g hc.1 n toNode b hn hnb hfb]
    simp [List.nodup_append, (hc.2.1 toNode
      (idToNode_mem_id g b toNode hfb).1).1, hni]
  · have huv := hc.2.2.1 u hum v hvm
    by_cases hua : u.id = a <;> by_cases hvb : v.id = b
    · simp [hua, hvb]
    · have hu' := node_eq_of_idToNode g hc.1 u fromNode a hum hua hfa
      have hvne : v.id ≠ b := hvb
      simp only [if_pos hua, if_neg hvb, List.mem_append,
        List.mem_singleton, hvne, or_false]
      exact huv
    · have hv' := node_eq_of_idToNode g hc.1 v toNode b hvm hvb hfb
      have hune : u.id ≠ a := hua
      simp only [if_neg hua, if_pos hvb, List.mem_append,
        List.mem_singleton, hune, or_false]
      exact huv
    · simp [hua, hvb, huv]

theorem consistent_erasePrec (g : Graph) (a b : Nat) (hc : Consistent g) :
    Consistent (g.map (fun n =>
      { n with pout := if n.id = a then n.pout.erase b else n.pout,
               pin := if n.id = b then n.pin.erase a else n.pin })) := by
  refine consistent_map_pout_pin g a b (fun l => l.erase b)
    (fun l => l.erase a) hc
    (fun n hn _ => ((hc.2.1 n hn).2.2.2).erase _)
    (fun n hn _ => ((hc.2.1 n hn).2.2.1).erase _)
    (fun u hum v hvm => ?_)
  have huv := hc.2.2.2 u hum v hvm
  have h4 := (hc.2.1 u hum).2.2.2
  have h3 := (hc.2.1 v hvm).2.2.1
  by_cases hua : u.id = a <;> by_cases hvb : v.id = b <;>
    simp [hua, hvb, h4.mem_erase_iff, h3.mem_erase_iff, huv] <;> simp_all

theorem consistent_appendPrec (g : Graph) (a b : Nat) (hc : Consistent g)
    (fromNode toNode : Node)
    (hfa : idToNode g a = some fromNode) (hfb : idToNode g b = some toNode)
    (hno : b ∉ fromNode.pout) (hni : a ∉ toNode.pin) :
    Consistent (update (update g a
      (fun n => { n with pout := n.pout ++ [b] }))
      b (fun n => { n with pin := n.pin ++ [a] })) := by
  rw [update_update_pout_pin g a b (fun l => l ++ [b]) (fun l => l ++ [a])]
  refine consistent_map_pout_pin g a b (fun l => l ++ [b]) (fun l => l ++ [a])
    hc (fun n hn hna => ?_) (fun n hn hnb => ?_) (fun u hum v hvm => ?_)
  · rw [node_eq_of_idToNode g hc.1 n fromNode a hn hna hfa]
    simp [List.nodup_append, (hc.2.1 fromNode
      (idToNode_mem_id g a fromNode hfa).1).2.2.2, hno]
  · rw [node_eq_of_idToNode g hc.1 n toNode b hn hnb hfb]
    simp [List.nodup_append, (hc.2.1 toNode
      (idToNode_mem_id g b toNode hfb).1).2.2.1, hni]
  · have huv := hc.2.2.2 u hum v hvm
    by_cases hua : u.id = a <;> by_cases hvb : v.id = b
    · simp [hua, hvb]
    · have hvne : v.id ≠ b := hvb
      simp only [if_pos hua, if_neg hvb, List.mem_append,
        List.mem_singleton, hvne, or_false]
      exact huv
    · have hune : u.id ≠ a := hua
      simp only [if_neg hua, if_pos hvb, List.mem_append,
        List.mem_singleton, hune, or_false]
      exact huv
    · simp [hua, hvb, huv]

theorem update_eq_self_of_absent (g : Graph) (i : Nat) (f : Node → Node)
    (h : i ∉ idsOf g) : update g i f = g := by
  unfold update
  have : ∀ n ∈ g, (if n.id = i then f n else n) = n := by
    intro n hn
    rw [if_neg (fun he => h ((mem_idsOf_iff g i).mpr ⟨n, hn, he⟩))]
  calc g.map (fun n => if n.id = i then f n else n)
      = g.map id := List.map_congr_left this
    _ = g := List.map_id g

theorem pinG_update_frame (g : Graph) (i j : Nat) (f : Node → Node)
    (hid : ∀ n, (f n).id = n.id) (hpin : ∀ n, (f n).pin = n.pin) :
    pinG (update g i f) j = pinG g j := by
  unfold pinG update
  rw [idToNode_map g _ j
    (fun n => by by_cases h : n.id = i <;> simp [h, hid])]
  cases hj : idToNode g j with
  | none => rfl
  | some n =>
    simp only [Option.map_some]
    by_cases h : n.id = i <;> simp [h, hpin]

theorem poutG_update_frame (g : Graph) (i j : Nat) (f : Node → Node)
    (hid : ∀ n, (f n).id = n.id) (hpout : ∀ n, (f n).pout = n.pout) :
    poutG (update g i f) j = poutG g j := by
  unfold poutG update
  rw [idToNode_map g _ j
    (fun n => by by_cases h : n.id = i <;> simp [h, hid])]
  cases hj : idToNode g j with
  | none => rfl
  | some n =>
    simp only [Option.map_some]
    by_cases h : n.id = i <;> simp [h, hpout]

theorem poutG_update_self (g : Graph) (i : Nat) (f : Node → Node) (n : Node)
    (hid : ∀ m, (f m).id = m.id) (hsome : idToNode g i = some n) :
    poutG (update g i f) i = (f n).pout := by
  unfold poutG
  rw [idToNode_update_self g i f hid, hsome]
  rfl

theorem pinG_update_self (g : Graph) (i : Nat) (f : Node → Node) (n : Node)
    (hid : ∀ m, (f m).id = m.id) (hsome : idToNode g i = some n) :
    pinG (update g i f) i = (f n).pin := by
  unfold pinG
  rw [idToNode_update_self g i f hid, hsome]
  rfl

theorem pinG_eq_of_some (g : Graph) (i : Nat) (n : Node)
    (h : idToNode g i = some n) : pinG g i = n.pin := by
  unfold pinG
  rw [h]

theorem poutG_eq_of_some (g : Graph) (i : Nat) (n : Node)
    (h : idToNode g i = some n) : poutG g i = n.pout := by
  unfold poutG
  rw [h]

theorem pinG_eq_nil_of_none (g : Graph) (i : Nat)
    (h : idToNode g i = none) : pinG g i = [] := by
  unfold pinG
  rw [h]

theorem poutG_eq_nil_of_none (g : Graph) (i : Nat)
    (h : idToNode g i = none) : poutG g i = [] := by
  unfold poutG
  rw [h]

theorem foldlM_ok_preserves {α : Type} (P : Graph → Prop)
    (step : Graph → α → Except Err Graph)
    (hstep : ∀ g x g', P g → step g x = .ok g' → P g') (l : List α) :
    ∀ g g', P g → l.foldlM step g = .ok g' → P g' := by
  induction l with
  | nil =>
    intro g g' hp h
    rw [List.foldlM_nil] at h
    cases h
    exact hp
  | cons x l ih =>
    intro g g' hp h
    rw [List.foldlM_cons, bind_ok_iff] at h
    obtain ⟨g1, hg1, hrest⟩ := h
    exact ih g1 g' (hstep g x g1 hp hg1) hrest

theorem foldl_preserves {α : Type} (P : Graph → Prop)
    (step : Graph → α → Graph) (hstep : ∀ g x, P g → P (step g x))
    (l : List α) : ∀ g, P g → P (l.foldl step g) := by
  induction l with
  | nil => intro g hp; exact hp
  | cons x l ih =>
    intro g hp
    rw [List.foldl_cons]
    exact ih (step g x) (hstep g x hp)

theorem addEdge_preserves (g g' : Graph) (a b : Nat) (hc : Consistent g)
    (h : addEdge g a b = .ok g') : Consistent g' := by
  unfold addEdge at h
  cases hfa : idToNode g a with
  | none => simp [hfa] at h
  | some fromNode =>
    cases hfb : idToNode g b with
    | none => simp [hfa, hfb] at h
    | some toNode =>
      simp only [hfa, hfb] at h
      by_cases h1 : b ∈ fromNode.outlinks
      · by_cases h2 : a ∈ toNode.inlinks
        · rw [if_pos h1, if_pos h2] at h
          cases h
          exact hc
        · rw [if_pos h1, if_neg h2] at h
          cases h
      · by_cases h2 : a ∈ toNode.inlinks
        · rw [if_neg h1, if_pos h2] at h
          cases h
        · rw [if_neg h1, if_neg h2] at h
          cases h
          exact consistent_appendAttach g a b hc fromNode toNode hfa hfb h1 h2

theorem removeEdge_preserves (g g' : Graph) (a b : Nat) (sup : Bool)
    (hc : Consistent g) (h : removeEdge g a b sup = .ok g') : Consistent g' := by
  unfold removeEdge at h
  cases hfa : idToNode g a with
  | none => simp [hfa] at h
  | some fromNode =>
    cases hfb : idToNode g b with
    | none => simp [hfa, hfb] at h
    | some toNode =>
      simp only [hfa, hfb] at h
      by_cases h1 : sup = true ∧ (b ∉ fromNode.outlinks ∨ a ∉ toNode.inlinks)
      · rw [if_pos h1] at h
        cases h
        exact hc
      · rw [if_neg h1] at h
        by_cases h2 : b ∉ fromNode.outlinks ∨ a ∉ toNode.inlinks
        · rw [if_pos h2] at h
          cases h
        · rw [if_neg h2] at h
          cases h
          exact consistent_eraseAttach g a b hc

theorem removeEdgesForVertex_preserves (g g' : Graph) (i : Nat)
    (hc : Consistent g) (h : removeEdgesForVertex g i = .ok g') :
    Consistent g' := by
  unfold removeEdgesForVertex at h
  cases hfi : idToNode g i with
  | none => simp [hfi] at h
  | some node =>
    simp only [hfi] at h
    rw [bind_ok_iff] at h
    obtain ⟨g1, hg1, h2⟩ := h
    have hc1 : Consistent g1 := foldlM_ok_preserves Consistent _
      (fun g x g' hp hs => removeEdge_preserves g g' x i false hp hs)
      node.inlinks g g1 hc hg1
    cases hfi1 : idToNode g1 i with
    | none => simp [hfi1] at h2
    | some node1 =>
      simp only [hfi1] at h2
      exact foldlM_ok_preserves Consistent _
        (fun g x g' hp hs => removeEdge_preserves g g' i x false hp hs)
        node1.outlinks g1 g' hc1 h2

theorem consistent_erase_node (g : Graph) (n : Node) (hc : Consistent g) :
    Consistent (g.erase n) := by
  obtain ⟨hu, hnl, hrec, hprec⟩ := hc
  have hsub : (g.erase n).Sublist g := List.erase_sublist n g
  have h1 : UniqueIds (g.erase n) := by
    unfold UniqueIds idsOf
    exact List.Nodup.sublist (hsub.map (fun m => m.id)) hu
  refine ⟨h1,
    fun m hm => hnl m (hsub.mem hm),
    fun u hu' v hv' => hrec u (hsub.mem hu') v (hsub.mem hv'),
    fun u hu' v hv' => hprec u (hsub.mem hu') v (hsub.mem hv')⟩

theorem removeVertex_preserves (g g' : Graph) (i : Nat)
    (hc : Consistent g) (h : removeVertex g i = .ok g') : Consistent g' := by
  unfold removeVertex at h
  rw [bind_ok_iff] at h
  obtain ⟨g1, hg1, h2⟩ := h
  have hc1 := removeEdgesForVertex_preserves g g1 i hc hg1
  cases hfi : idToNode g1 i with
  | none => simp [hfi] at h2
  | some node =>
    simp only [hfi] at h2
    cases h2
    exact consistent_erase_node g1 node hc1

theorem addPrecedenceEdge_preserves (g g' : Graph) (a b : Nat)
    (hc : Consistent g) (h : addPrecedenceEdge g a b = .ok g') :
    Consistent g' := by
  unfold addPrecedenceEdge at h
  cases hfa : idToNode g a with
  | none => simp [hfa] at h
  | some fromNode =>
    cases hfb : idToNode g b with
    | none => simp [hfa, hfb] at h
    | some toNode =>
      simp only [hfa, hfb] at h
      by_cases h1 : b ∈ fromNode.pout
      · by_cases h2 : a ∈ toNode.pin
        · rw [if_pos h1, if_pos h2] at h
          cases h
          exact hc
        · rw [if_pos h1, if_neg h2] at h
          cases h
      · by_cases h2 : a ∈ toNode.pin
        · rw [if_neg h1, if_pos h2] at h
          cases h
        · rw [if_neg h1, if_neg h2] at h
          cases h
          exact consistent_appendPrec g a b hc fromNode toNode hfa hfb h1 h2

theorem removePrecedenceEdge_preserves (g g' : Graph) (a b : Nat)
    (sup : Bool) (hc : Consistent g)
    (h : removePrecedenceEdge g a b sup = .ok g') : Consistent g' := by
  unfold removePrecedenceEdge at h
  cases hfa : idToNode g a with
  | none => simp [hfa] at h
  | some fromNode =>
    cases hfb : idToNode g b with
    | none => simp [hfa, hfb] at h
    | some toNode =>
      simp only [hfa, hfb] at h
      by_cases h1 : sup = true ∧ (b ∉ fromNode.pout ∨ a ∉ toNode.pin)
      · rw [if_pos h1] at h
        cases h
        exact hc
      · rw [if_neg h1] at h
        by_cases h2 : b ∉ fromNode.pout ∨ a ∉ toNode.pin
        · rw [if_pos h2] at h
          cases h
        · rw [if_neg h2] at h
          cases h
          rw [update_update_pout_pin g a b (fun l => l.erase b)
            (fun l => l.erase a)]
          exact consistent_erasePrec g a b hc

theorem rfpPhase1_preserves (x : Nat) (preds : List Nat) (g g' : Graph)
    (hc : Consistent g) (h : rfpPhase1 x preds g = .ok g') : Consistent g' := by
  unfold rfpPhase1 at h
  refine foldlM_ok_preserves Consistent _ (fun acc p acc' hp hs => ?_)
    preds g g' hc h
  cases hfp : idToNode acc p with
  | none => simp [hfp] at hs
  | some pn =>
    simp only [hfp] at hs
    by_cases h1 : x ∉ pn.pout
    · rw [if_pos h1] at hs
      cases hs
    · rw [if_neg h1] at hs
      cases hfx : idToNode acc x with
      | none => simp [hfx] at hs
      | some xn =>
        simp only [hfx] at hs
        by_cases h2 : p ∉ xn.pin
        · rw [if_pos h2] at hs
          cases hs
        · rw [if_neg h2] at hs
          cases hs
          rw [update_update_pout_pin acc p x (fun l => l.erase x)
            (fun l => l.erase p)]
          exact consistent_erasePrec acc p x hp

theorem rfpPhase2_preserves (x : Nat) (descs : List Nat) (g g' : Graph)
    (hc : Consistent g) (h : rfpPhase2 x descs g = .ok g') : Consistent g' := by
  unfold rfpPhase2 at h
  refine foldlM_ok_preserves Consistent _ (fun acc d acc' hp hs => ?_)
    descs g g' hc h
  cases hfd : idToNode acc d with
  | none => simp [hfd] at hs
  | some dn =>
    simp only [hfd] at hs
    by_cases h1 : x ∉ dn.pin
    · rw [if_pos h1] at hs
      cases hs
    · rw [if_neg h1] at hs
      cases hfx : idToNode acc x with
      | none => simp [hfx] at hs
      | some xn =>
        simp only [hfx] at hs
        by_cases h2 : d ∉ xn.pout
        · rw [if_pos h2] at hs
          cases hs
        · rw [if_neg h2] at hs
          cases hs
          rw [update_update_pin_pout acc d x (fun l => l.erase x)
            (fun l => l.erase d)]
          exact consistent_erasePrec acc x d hp

theorem absent_of_idToNode_none (g : Graph) (i : Nat)
    (h : idToNode g i = none) : i ∉ idsOf g := by
  intro hm
  have hs := (idToNode_isSome_iff g i).mpr hm
  rw [h] at hs
  simp at hs

theorem consistent_appendPout_dangling (g : Graph) (p d : Nat) (pn : Node)
    (hc : Consistent g) (hfp : idToNode g p = some pn) (hd : d ∉ idsOf g)
    (hno : d ∉ pn.pout) :
    Consistent (update g p (fun n => { n with pout := n.pout ++ [d] })) := by
  obtain ⟨hu, hnl, hrec, hprec⟩ := hc
  refine ⟨?_, ?_, ?_, ?_⟩
  · unfold UniqueIds
    rw [idsOf_update g p (fun n => { n with pout := n.pout ++ [d] })
      (fun n => rfl)]
    exact hu
  · intro m hm
    rw [mem_update_iff] at hm
    obtain ⟨n, hn, hmeq⟩ := hm
    subst hmeq
    obtain ⟨h1, h2, h3, h4⟩ := hnl n hn
    by_cases hnp : n.id = p
    · have heq := node_eq_of_idToNode g hu n pn p hn hnp hfp
      subst heq
      simp [hnp, h1, h2, h3, h4, List.nodup_append, hno]
    · simp [hnp, h1, h2, h3, h4]
  · intro u' hu' v' hv'
    rw [mem_update_iff] at hu' hv'
    obtain ⟨u, hum, hueq⟩ := hu'
    obtain ⟨v, hvm, hveq⟩ := hv'
    subst hueq hveq
    have huv := hrec u hum v hvm
    by_cases hup : u.id = p <;> by_cases hvp : v.id = p <;>
      simp [hup, hvp, huv] <;> simp_all
  · intro u' hu' v' hv'
    rw [mem_update_iff] at hu' hv'
    obtain ⟨u, hum, hueq⟩ := hu'
    obtain ⟨v, hvm, hveq⟩ := hv'
    subst hueq hveq
    have huv := hprec u hum v hvm
    have hvd : v.id ≠ d := fun he =>
      hd (he ▸ (mem_idsOf_iff g d).mpr ⟨v, hvm, he⟩)
    by_cases hup : u.id = p <;> by_cases hvp : v.id = p <;>
      simp [hup, hvp, huv, hvd] <;> simp_all

theorem consistent_appendPin_dangling (g : Graph) (d p : Nat) (dn : Node)
    (hc : Consistent g) (hfd : idToNode g d = some dn) (hp : p ∉ idsOf g)
    (hni : p ∉ dn.pin) :
    Consistent (update g d (fun n => { n with pin := n.pin ++ [p] })) := by
  obtain ⟨hu, hnl, hrec, hprec⟩ := hc
  refine ⟨?_, ?_, ?_, ?_⟩
  · unfold UniqueIds
    rw [idsOf_update g d (fun n => { n with pin := n.pin ++ [p] })
      (fun n => rfl)]
    exact hu
  · intro m hm
    rw [mem_update_iff] at hm
    obtain ⟨n, hn, hmeq⟩ := hm
    subst hmeq
    obtain ⟨h1, h2, h3, h4⟩ := hnl n hn
    by_cases hnd : n.id = d
    · have heq := node_eq_of_idToNode g hu n dn d hn hnd hfd
      subst heq
      simp [hnd, h1, h2, h3, h4, List.nodup_append, hni]
    · simp [hnd, h1, h2, h3, h4]
  · intro u' hu' v' hv'
    rw [mem_update_iff] at hu' hv'
    obtain ⟨u, hum, hueq⟩ := hu'
    obtain ⟨v, hvm, hveq⟩ := hv'
    subst hueq hveq
    have huv := hrec u hum v hvm
    by_cases hud : u.id = d <;> by_cases hvd : v.id = d <;>
      simp [hud, hvd, huv] <;> simp_all
  · intro u' hu' v' hv'
    rw [mem_update_iff] at hu' hv'
    obtain ⟨u, hum, hueq⟩ := hu'
    obtain ⟨v, hvm, hveq⟩ := hv'
    subst hueq hveq
    have huv := hprec u hum v hvm
    have hup : u.id ≠ p := fun he =>
      hp (he ▸ (mem_idsOf_iff g p).mpr ⟨u, hum, he⟩)
    by_cases hud : u.id = d <;> by_cases hvd : v.id = d <;>
      simp [hud, hvd, huv, hup] <;> simp_all

theorem rfpBridgeStep_preserves (p d : Nat) (g : Graph) (hc : Consistent g) :
    Consistent (rfpBridgeStep p g d) := by
  unfold rfpBridgeStep rfpBridgeIn
  by_cases hg1 : d ∈ poutG g p
  · rw [if_pos hg1]
    by_cases hg2 : p ∈ pinG g d
    · rw [if_pos hg2]
      exact hc
    · rw [if_neg hg2]
      cases hfp : idToNode g p with
      | none =>
        rw [poutG_eq_nil_of_none g p hfp] at hg1
        cases hg1
      | some pn =>
        cases hfd : idToNode g d with
        | none =>
          rw [update_eq_self_of_absent g d _
            (absent_of_idToNode_none g d hfd)]
          exact hc
        | some dn =>
          exfalso
          have hpm := idToNode_mem_id g p pn hfp
          have hdm := idToNode_mem_id g d dn hfd
          have hiff := hc.2.2.2 pn hpm.1 dn hdm.1
          rw [hpm.2, hdm.2] at hiff
          rw [poutG_eq_of_some g p pn hfp] at hg1
          rw [pinG_eq_of_some g d dn hfd] at hg2
          exact hg2 (hiff.mp hg1)
  · rw [if_neg hg1]
    cases hfp : idToNode g p with
    | none =>
      have hpabs := absent_of_idToNode_none g p hfp
      rw [update_eq_self_of_absent g p _ hpabs]
      by_cases hg2 : p ∈ pinG g d
      · rw [if_pos hg2]
        exact hc
      · rw [if_neg hg2]
        cases hfd : idToNode g d with
        | none =>
          rw [update_eq_self_of_absent g d _
            (absent_of_idToNode_none g d hfd)]
          exact hc
        | some dn =>
          refine consistent_appendPin_dangling g d p dn hc hfd hpabs ?_
          rw [pinG_eq_of_some g d dn hfd] at hg2
          exact hg2
    | some pn =>
      have hno : d ∉ pn.pout := by
        rw [poutG_eq_of_some g p pn hfp] at hg1
        exact hg1
      cases hfd : idToNode g d with
      | none =>
        have hdabs := absent_of_idToNode_none g d hfd
        have hcons2 := consistent_appendPout_dangling g p d pn hc hfp hdabs hno
        have hdabs2 : d ∉ idsOf (update g p
            (fun n => { n with pout := n.pout ++ [d] })) := by
          rw [idsOf_update g p (fun n => { n with pout := n.pout ++ [d] })
            (fun n => rfl)]
          exact hdabs
        have hnone2 : idToNode (update g p
            (fun n => { n with pout := n.pout ++ [d] })) d = none := by
          cases hcase : idToNode (update g p
              (fun n => { n with pout := n.pout ++ [d] })) d with
          | none => rfl
          | some m =>
            exact absurd ((idToNode_isSome_iff _ d).mp (by rw [hcase]; rfl))
              hdabs2
        rw [if_neg (by rw [pinG_eq_nil_of_none _ d hnone2]; simp)]
        rw [update_eq_self_of_absent _ d _ hdabs2]
        exact hcons2
      | some dn =>
        have hni : p ∉ dn.pin := by
          intro hmem
          have hpm := idToNode_mem_id g p pn hfp
          have hdm := idToNode_mem_id g d dn hfd
          have hiff := hc.2.2.2 pn hpm.1 dn hdm.1
          rw [hpm.2, hdm.2] at hiff
          exact hno (hiff.mpr hmem)
        have hframe : pinG (update g p
            (fun n => { n with pout := n.pout ++ [d] })) d = pinG g d :=
          pinG_update_frame g p d _ (fun n => rfl) (fun n => rfl)
        rw [if_neg (by
          rw [hframe, pinG_eq_of_some g d dn hfd]
          exact hni)]
        exact consistent_appendPrec g p d hc pn dn hfp hfd hno hni

theorem rfpPhase3_preserves (preds descs : List Nat) (g : Graph)
    (hc : Consistent g) : Consistent (rfpPhase3 preds descs g) := by
  unfold rfpPhase3
  refine foldl_preserves Consistent _ (fun acc p hp => ?_) preds g hc
  exact foldl_preserves Consistent _
    (fun acc2 d hp2 => rfpBridgeStep_preserves p d acc2 hp2) descs acc hp

theorem removeFromPrecedence_preserves (g g' : Graph) (x : Nat)
    (hc : Consistent g) (h : removeFromPrecedence g x = .ok g') :
    Consistent g' := by
  unfold removeFromPrecedence at h
  cases hfx : idToNode g x with
  | none => simp [hfx] at h
  | some node =>
    simp only [hfx] at h
    by_cases h0 : node.pin.isEmpty ∧ node.pout.isEmpty
    · rw [if_pos h0] at h
      cases h
      exact hc
    · rw [if_neg h0] at h
      rw [bind_ok_iff] at h
      obtain ⟨g1, hg1, h2⟩ := h
      rw [bind_ok_iff] at h2
      obtain ⟨g2, hg2, h3⟩ := h2
      rw [pure_eq_ok] at h3
      cases h3
      exact rfpPhase3_preserves node.pin node.pout g2
        (rfpPhase2_preserves x node.pout g1 g2
          (rfpPhase1_preserves x node.pin g g1 hc hg1) hg2)

theorem mutStep_preserves (g g' : Graph) (hc : Consistent g)
    (h : MutStep g g') : Consistent g' := by
  cases h with
  | addE h => exact addEdge_preserves _ _ _ _ hc h
  | remE h => exact removeEdge_preserves _ _ _ _ _ hc h
  | remEFV h => exact removeEdgesForVertex_preserves _ _ _ hc h
  | remV h => exact removeVertex_preserves _ _ _ hc h
  | addP h => exact addPrecedenceEdge_preserves _ _ _ _ hc h
  | remP h => exact removePrecedenceEdge_preserves _ _ _ _ _ hc h
  | remFP h => exact removeFromPrecedence_preserves _ _ _ hc h

theorem consistent_reachable (g g' : Graph) (hc : Consistent g)
    (h : Relation.ReflTransGen MutStep g g') : Consistent g' := by
  induction h with
  | refl => exact hc
  | tail _ h2 ih => exact mutStep_preserves _ _ ih h2

/-- Witness graph for the mutator invariant: two unlinked nodes. -/
def wG4 : Graph :=
  [{ id := 0, className := "noteheadFull" }, { id := 1, className := "stem" }]

/-- `add_edge(0, 1)` applied to `wG4`. -/
def wG4' : Graph :=
  [{ id := 0, className := "noteheadFull", outlinks := [1] },
   { id := 1, className := "stem", inlinks := [0] }]

/-- C4, counterexample: the graph `cexG4` satisfies membership reciprocity
(`b ∈ a.outlinks ⟺ a ∈ b.inlinks` and the precedence analogue) but stores
the edge 0 → 1 twice in the outlinks of node 0; `remove_edge(0, 1)` — a
public mutator — removes one occurrence per side and reaches `cexG4'`, where
1 is still in the outlinks of node 0 but 0 is no longer in the inlinks of
node 1: reciprocity does not hold for every graph reachable from a
reciprocally consistent graph. -/
theorem removeEdge_breaks_reciprocity :
    Reciprocal cexG4 ∧ PrecReciprocal cexG4 ∧
    removeEdge cexG4 0 1 false = .ok cexG4' ∧ ¬ Reciprocal cexG4' := by
  unfold Reciprocal PrecReciprocal
  decide

/-- C4, amended: on graphs whose node ids are unique and whose link lists
are duplicate-free, membership reciprocity (attachment and precedence) is
preserved by every public mutator, hence holds for every reachable graph;
`add_edge`/`add_precedence_edge` on a fully-present edge is a no-op
returning the graph unchanged, and on a half-present edge raises
`NotationGraphError`. -/
theorem graph_mutators_preserve_reciprocity :
    (∀ g g' : Graph, Consistent g → Relation.ReflTransGen MutStep g g' →
      Reciprocal g' ∧ PrecReciprocal g') ∧
    (∀ (g : Graph) (a b : Nat) (fromNode toNode : Node),
      idToNode g a = some fromNode → idToNode g b = some toNode →
      b ∈ fromNode.outlinks → a ∈ toNode.inlinks → addEdge g a b = .ok g) ∧
    (∀ (g : Graph) (a b : Nat) (fromNode toNode : Node),
      idToNode g a = some fromNode → idToNode g b = some toNode →
      ((b ∈ fromNode.outlinks ∧ a ∉ toNode.inlinks) ∨
       (b ∉ fromNode.outlinks ∧ a ∈ toNode.inlinks)) →
      addEdge g a b = .error .graphErr) ∧
    (∀ (g : Graph) (a b : Nat) (fromNode toNode : Node),
      idToNode g a = some fromNode → idToNode g b = some toNode →
      b ∈ fromNode.pout → a ∈ toNode.pin → addPrecedenceEdge g a b = .ok g) ∧
    (∀ (g : Graph) (a b : Nat) (fromNode toNode : Node),
      idToNode g a = some fromNode → idToNode g b = some toNode →
      ((b ∈ fromNode.pout ∧ a ∉ toNode.pin) ∨
       (b ∉ fromNode.pout ∧ a ∈ toNode.pin)) →
      addPrecedenceEdge g a b = .error .graphErr) := by
  refine ⟨fun g g' hc hr => ?_, fun g a b fn tn hfa hfb h1 h2 => ?_,
    fun g a b fn tn hfa hfb hhalf => ?_, fun g a b fn tn hfa hfb h1 h2 => ?_,
    fun g a b fn tn hfa hfb hhalf => ?_⟩
  · have hcg := consistent_reachable g g' hc hr
    exact ⟨hcg.2.2.1, hcg.2.2.2⟩
  · unfold addEdge
    simp only [hfa, hfb]
    rw [if_pos h1, if_pos h2]
  · unfold addEdge
    simp only [hfa, hfb]
    rcases hhalf with ⟨h1, h2⟩ | ⟨h1, h2⟩
    · rw [if_pos h1, if_neg h2]
    · rw [if_neg h1, if_pos h2]
  · unfold addPrecedenceEdge
    simp only [hfa, hfb]
    rw [if_pos h1, if_pos h2]
  · unfold addPrecedenceEdge
    simp only [hfa, hfb]
    rcases hhalf with ⟨h1, h2⟩ | ⟨h1, h2⟩
    · rw [if_pos h1, if_neg h2]
    · rw [if_neg h1, if_pos h2]

/-- C4, witness: one `add_edge` step from the consistent two-node graph
`wG4` reaches `wG4'`, which is reciprocal in both link kinds. -/
theorem graph_mutators_preserve_reciprocity_witness :
    Reciprocal wG4' ∧ PrecReciprocal wG4' :=
  graph_mutators_preserve_reciprocity.1 wG4 wG4'
    (by
      unfold Consistent UniqueIds NodupLinks Reciprocal PrecReciprocal
      decide)
    (Relation.ReflTransGen.single (@MutStep.addE wG4 wG4' 0 1 (by decide)))

theorem pinG_update_other (g : Graph) (i j : Nat) (f : Node → Node)
    (hid : ∀ n, (f n).id = n.id) (hne : j ≠ i) :
    pinG (update g i f) j = pinG g j := by
  unfold pinG
  rw [idToNode_update_other g i j f hid hne]

theorem poutG_update_other (g : Graph) (i j : Nat) (f : Node → Node)
    (hid : ∀ n, (f n).id = n.id) (hne : j ≠ i) :
    poutG (update g i f) j = poutG g j := by
  unfold poutG
  rw [idToNode_update_other g i j f hid hne]

theorem pinG_update_eraseSelf (h : Graph) (x p : Nat) :
    pinG (update h x (fun n => { n with pin := n.pin.erase p })) x =
    (pinG h x).erase p := by
  cases hfx : idToNode h x with
  | none =>
    have hnone : idToNode (update h x
        (fun n => { n with pin := n.pin.erase p })) x = none := by
      rw [idToNode_update_self h x (fun n => { n with pin := n.pin.erase p })
        (fun m => rfl), hfx]
      rfl
    rw [pinG_eq_nil_of_none _ x hnone, pinG_eq_nil_of_none h x hfx]
    rfl
  | some m =>
    rw [pinG_update_self h x (fun n => { n with pin := n.pin.erase p }) m
      (fun mm => rfl) hfx, pinG_eq_of_some h x m hfx]

theorem poutG_update_eraseSelf (h : Graph) (x d : Nat) :
    poutG (update h x (fun n => { n with pout := n.pout.erase d })) x =
    (poutG h x).erase d := by
  cases hfx : idToNode h x with
  | none =>
    have hnone : idToNode (update h x
        (fun n => { n with pout := n.pout.erase d })) x = none := by
      rw [idToNode_update_self h x (fun n => { n with pout := n.pout.erase d })
        (fun m => rfl), hfx]
      rfl
    rw [poutG_eq_nil_of_none _ x hnone, poutG_eq_nil_of_none h x hfx]
    rfl
  | some m =>
    rw [poutG_update_self h x (fun n => { n with pout := n.pout.erase d }) m
      (fun mm => rfl) hfx, poutG_eq_of_some h x m hfx]

theorem foldl_erase_self (l : List Nat) :
    l.foldl (fun acc p => acc.erase p) l = [] := by
  induction l with
  | nil => rfl
  | cons p ps ih =>
    rw [List.foldl_cons, List.erase_cons_head]
    exact ih

theorem rfpPhase1_pin (x : Nat) (ps : List Nat) : ∀ g g1 : Graph,
    rfpPhase1 x ps g = .ok g1 →
    pinG g1 x = ps.foldl (fun acc p => acc.erase p) (pinG g x) := by
  induction ps with
  | nil =>
    intro g g1 h
    unfold rfpPhase1 at h
    rw [List.foldlM_nil] at h
    cases h
    rfl
  | cons p ps ih =>
    intro g g1 h
    unfold rfpPhase1 at h
    rw [List.foldlM_cons, bind_ok_iff] at h
    obtain ⟨gmid, hstep, hrest⟩ := h
    have hrest2 : rfpPhase1 x ps gmid = .ok g1 := hrest
    cases hfp : idToNode g p with
    | none => simp [hfp] at hstep
    | some pn =>
      simp only [hfp] at hstep
      by_cases h1 : x ∉ pn.pout
      · rw [if_pos h1] at hstep
        cases hstep
      · rw [if_neg h1] at hstep
        cases hfx : idToNode g x with
        | none => simp [hfx] at hstep
        | some xn =>
          simp only [hfx] at hstep
          by_cases h2 : p ∉ xn.pin
          · rw [if_pos h2] at hstep
            cases hstep
          · rw [if_neg h2] at hstep
            cases hstep
            rw [List.foldl_cons, ih _ g1 hrest2, pinG_update_eraseSelf _ x p,
              pinG_update_frame g p x
                (fun n => { n with pout := n.pout.erase x })
                (fun n => rfl) (fun n => rfl)]

theorem rfpPhase2_pout (x : Nat) (ds : List Nat) : ∀ g g2 : Graph,
    rfpPhase2 x ds g = .ok g2 →
    poutG g2 x = ds.foldl (fun acc d => acc.erase d) (poutG g x) := by
  induction ds with
  | nil =>
    intro g g2 h
    unfold rfpPhase2 at h
    rw [List.foldlM_nil] at h
    cases h
    rfl
  | cons d ds ih =>
    intro g g2 h
    unfold rfpPhase2 at h
    rw [List.foldlM_cons, bind_ok_iff] at h
    obtain ⟨gmid, hstep, hrest⟩ := h
    have hrest2 : rfpPhase2 x ds gmid = .ok g2 := hrest
    cases hfd : idToNode g d with
    | none => simp [hfd] at hstep
    | some dn =>
      simp only [hfd] at hstep
      by_cases h1 : x ∉ dn.pin
      · rw [if_pos h1] at hstep
        cases hstep
      · rw [if_neg h1] at hstep
        cases hfx : idToNode g x with
        | none => simp [hfx] at hstep
        | some xn =>
          simp only [hfx] at hstep
          by_cases h2 : d ∉ xn.pout
          · rw [if_pos h2] at hstep
            cases hstep
          · rw [if_neg h2] at hstep
            cases hstep
            rw [List.foldl_cons, ih _ g2 hrest2, poutG_update_eraseSelf _ x d,
              poutG_update_frame g d x
                (fun n => { n with pin := n.pin.erase x })
                (fun n => rfl) (fun n => rfl)]

theorem rfpPhase2_ok_not_self (x : Nat) (ds : List Nat) : ∀ g g2 : Graph,
    pinG g x = [] → rfpPhase2 x ds g = .ok g2 → x ∉ ds := by
  induction ds with
  | nil =>
    intro g g2 _ _
    simp
  | cons d ds ih =>
    intro g g2 hpin h
    unfold rfpPhase2 at h
    rw [List.foldlM_cons, bind_ok_iff] at h
    obtain ⟨gmid, hstep, hrest⟩ := h
    have hrest2 : rfpPhase2 x ds gmid = .ok g2 := hrest
    cases hfd : idToNode g d with
    | none => simp [hfd] at hstep
    | some dn =>
      simp only [hfd] at hstep
      by_cases h1 : x ∉ dn.pin
      · rw [if_pos h1] at hstep
        cases hstep
      · rw [if_neg h1] at hstep
        have hdx : d ≠ x := by
          intro he
          subst he
          rw [pinG_eq_of_some g d dn hfd] at hpin
          rw [hpin] at h1
          exact h1 (by simp)
        cases hfx : idToNode g x with
        | none => simp [hfx] at hstep
        | some xn =>
          simp only [hfx] at hstep
          by_cases h2 : d ∉ xn.pout
          · rw [if_pos h2] at hstep
            cases hstep
          · rw [if_neg h2] at hstep
            cases hstep
            have hpin2 : pinG (update (update g d
                (fun n => { n with pin := n.pin.erase x })) x
                (fun n => { n with pout := n.pout.erase d })) x = [] := by
              rw [pinG_update_frame _ x x
                (fun n => { n with pout := n.pout.erase d })
                (fun n => rfl) (fun n => rfl),
                pinG_update_other g d x
                (fun n => { n with pin := n.pin.erase x })
                (fun n => rfl) hdx.symm]
              exact hpin
            have hnotin := ih _ g2 hpin2 hrest2
            intro hmem
            rcases List.mem_cons.mp hmem with he | hm
            · exact hdx he.symm
            · exact hnotin hm

theorem rfpPhase1_pout_frame (x : Nat) (ps : List Nat) : ∀ g g1 : Graph,
    rfpPhase1 x ps g = .ok g1 → x ∉ ps → poutG g1 x = poutG g x := by
  induction ps with
  | nil =>
    intro g g1 h _
    unfold rfpPhase1 at h
    rw [List.foldlM_nil] at h
    cases h
    rfl
  | cons p ps ih =>
    intro g g1 h hx
    unfold rfpPhase1 at h
    rw [List.foldlM_cons, bind_ok_iff] at h
    obtain ⟨gmid, hstep, hrest⟩ := h
    have hrest2 : rfpPhase1 x ps gmid = .ok g1 := hrest
    have hpx : x ≠ p := fun he => hx (he ▸ List.mem_cons_self p ps)
    cases hfp : idToNode g p with
    | none => simp [hfp] at hstep
    | some pn =>
      simp only [hfp] at hstep
      by_cases h1 : x ∉ pn.pout
      · rw [if_pos h1] at hstep
        cases hstep
      · rw [if_neg h1] at hstep
        cases hfx : idToNode g x with
        | none => simp [hfx] at hstep
        | some xn =>
          simp only [hfx] at hstep
          by_cases h2 : p ∉ xn.pin
          · rw [if_pos h2] at hstep
            cases hstep
          · rw [if_neg h2] at hstep
            cases hstep
            rw [ih _ g1 hrest2 (fun hm => hx (List.mem_cons_of_mem p hm)),
              poutG_update_frame _ x x
                (fun n => { n with pin := n.pin.erase p })
                (fun n => rfl) (fun n => rfl),
              poutG_update_other g p x
                (fun n => { n with pout := n.pout.erase x })
                (fun n => rfl) hpx]

theorem rfpPhase2_pin_frame (x : Nat) (ds : List Nat) : ∀ g g2 : Graph,
    rfpPhase2 x ds g = .ok g2 → x ∉ ds → pinG g2 x = pinG g x := by
  induction ds with
  | nil =>
    intro g g2 h _
    unfold rfpPhase2 at h
    rw [List.foldlM_nil] at h
    cases h
    rfl
  | cons d ds ih =>
    intro g g2 h hx
    unfold rfpPhase2 at h
    rw [List.foldlM_cons, bind_ok_iff] at h
    obtain ⟨gmid, hstep, hrest⟩ := h
    have hrest2 : rfpPhase2 x ds gmid = .ok g2 := hrest
    have hdx : x ≠ d := fun he => hx (he ▸ List.mem_cons_self d ds)
    cases hfd : idToNode g d with
    | none => simp [hfd] at hstep
    | some dn =>
      simp only [hfd] at hstep
      by_cases h1 : x ∉ dn.pin
      · rw [if_pos h1] at hstep
        cases hstep
      · rw [if_neg h1] at hstep
        cases hfx : idToNode g x with
        | none => simp [hfx] at hstep
        | some xn =>
          simp only [hfx] at hstep
          by_cases h2 : d ∉ xn.pout
          · rw [if_pos h2] at hstep
            cases hstep
          · rw [if_neg h2] at hstep
            cases hstep
            rw [ih _ g2 hrest2 (fun hm => hx (List.mem_cons_of_mem d hm)),
              pinG_update_frame _ x x
                (fun n => { n with pout := n.pout.erase d })
                (fun n => rfl) (fun n => rfl),
              pinG_update_other g d x
                (fun n => { n with pin := n.pin.erase x })
                (fun n => rfl) hdx]

theorem rfpPhase1_ok_facts (x : Nat) (ps : List Nat) : ∀ g g1 : Graph,
    rfpPhase1 x ps g = .ok g1 →
    idsOf g1 = idsOf g ∧ ∀ p ∈ ps, p ∈ idsOf g := by
  induction ps with
  | nil =>
    intro g g1 h
    unfold rfpPhase1 at h
    rw [List.foldlM_nil] at h
    cases h
    exact ⟨rfl, by simp⟩
  | cons p ps ih =>
    intro g g1 h
    unfold rfpPhase1 at h
    rw [List.foldlM_cons, bind_ok_iff] at h
    obtain ⟨gmid, hstep, hrest⟩ := h
    have hrest2 : rfpPhase1 x ps gmid = .ok g1 := hrest
    cases hfp : idToNode g p with
    | none => simp [hfp] at hstep
    | some pn =>
      simp only [hfp] at hstep
      have hpmem : p ∈ idsOf g := by
        rw [← idToNode_isSome_iff, hfp]
        rfl
      by_cases h1 : x ∉ pn.pout
      · rw [if_pos h1] at hstep
        cases hstep
      · rw [if_neg h1] at hstep
        cases hfx : idToNode g x with
        | none => simp [hfx] at hstep
        | some xn =>
          simp only [hfx] at hstep
          by_cases h2 : p ∉ xn.pin
          · rw [if_pos h2] at hstep
            cases hstep
          · rw [if_neg h2] at hstep
            cases hstep
            have hids : idsOf (update (update g p
                (fun n => { n with pout := n.pout.erase x })) x
                (fun n => { n with pin := n.pin.erase p })) = idsOf g := by
              rw [idsOf_update _ x (fun n => { n with pin := n.pin.erase p })
                (fun n => rfl),
                idsOf_update g p (fun n => { n with pout := n.pout.erase x })
                (fun n => rfl)]
            obtain ⟨hids1, hmem1⟩ := ih _ g1 hrest2
            refine ⟨by rw [hids1, hids], fun q hq => ?_⟩
            rcases List.mem_cons.mp hq with he | hm
            · rw [he]
              exact hpmem
            · have := hmem1 q hm
              rw [hids] at this
              exact this

theorem rfpPhase2_ok_facts (x : Nat) (ds : List Nat) : ∀ g g2 : Graph,
    rfpPhase2 x ds g = .ok g2 →
    idsOf g2 = idsOf g ∧ ∀ d ∈ ds, d ∈ idsOf g := by
  induction ds with
  | nil =>
    intro g g2 h
    unfold rfpPhase2 at h
    rw [List.foldlM_nil] at h
    cases h
    exact ⟨rfl, by simp⟩
  | cons d ds ih =>
    intro g g2 h
    unfold rfpPhase2 at h
    rw [List.foldlM_cons, bind_ok_iff] at h
    obtain ⟨gmid, hstep, hrest⟩ := h
    have hrest2 : rfpPhase2 x ds gmid = .ok g2 := hrest
    cases hfd : idToNode g d with
    | none => simp [hfd] at hstep
    | some dn =>
      simp only [hfd] at hstep
      have hdmem : d ∈ idsOf g := by
        rw [← idToNode_isSome_iff, hfd]
        rfl
      by_cases h1 : x ∉ dn.pin
      · rw [if_pos h1] at hstep
        cases hstep
      · rw [if_neg h1] at hstep
        cases hfx : idToNode g x with
        | none => simp [hfx] at hstep
        | some xn =>
          simp only [hfx] at hstep
          by_cases h2 : d ∉ xn.pout
          · rw [if_pos h2] at hstep
            cases hstep
          · rw [if_neg h2] at hstep
            cases hstep
            have hids : idsOf (update (update g d
                (fun n => { n with pin := n.pin.erase x })) x
                (fun n => { n with pout := n.pout.erase d })) = idsOf g := by
              rw [idsOf_update _ x (fun n => { n with pout := n.pout.erase d })
                (fun n => rfl),
                idsOf_update g d (fun n => { n with pin := n.pin.erase x })
                (fun n => rfl)]
            obtain ⟨hids1, hmem1⟩ := ih _ g2 hrest2
            refine ⟨by rw [hids1, hids], fun q hq => ?_⟩
            rcases List.mem_cons.mp hq with he | hm
            · rw [he]
              exact hdmem
            · have := hmem1 q hm
              rw [hids] at this
              exact this

theorem idsOf_bridgeStep (p d : Nat) (g : Graph) :
    idsOf (rfpBridgeStep p g d) = idsOf g := by
  unfold rfpBridgeStep rfpBridgeIn
  by_cases hg1 : d ∈ poutG g p
  · rw [if_pos hg1]
    by_cases hg2 : p ∈ pinG g d
    · rw [if_pos hg2]
    · rw [if_neg hg2,
        idsOf_update g d (fun n => { n with pin := n.pin ++ [p] })
        (fun n => rfl)]
  · rw [if_neg hg1]
    by_cases hg2 : p ∈ pinG (update g p
        (fun n => { n with pout := n.pout ++ [d] })) d
    · rw [if_pos hg2,
        idsOf_update g p (fun n => { n with pout := n.pout ++ [d] })
        (fun n => rfl)]
    · rw [if_neg hg2,
        idsOf_update _ d (fun n => { n with pin := n.pin ++ [p] })
        (fun n => rfl),
        idsOf_update g p (fun n => { n with pout := n.pout ++ [d] })
        (fun n => rfl)]

theorem poutG_update_append_mono (h : Graph) (p d i y : Nat)
    (hy : y ∈ poutG h i) :
    y ∈ poutG (update h p (fun n => { n with pout := n.pout ++ [d] })) i := by
  by_cases hip : i = p
  · subst hip
    cases hfi : idToNode h i with
    | none =>
      rw [poutG_eq_nil_of_none h i hfi] at hy
      cases hy
    | some n =>
      rw [poutG_update_self h i (fun n => { n with pout := n.pout ++ [d] }) n
        (fun m => rfl) hfi]
      rw [poutG_eq_of_some h i n hfi] at hy
      simp [hy]
  · rw [poutG_update_other h p i (fun n => { n with pout := n.pout ++ [d] })
      (fun n => rfl) hip]
    exact hy

theorem pinG_update_append_mono (h : Graph) (d p i y : Nat)
    (hy : y ∈ pinG h i) :
    y ∈ pinG (update h d (fun n => { n with pin := n.pin ++ [p] })) i := by
  by_cases hid : i = d
  · subst hid
    cases hfi : idToNode h i with
    | none =>
      rw [pinG_eq_nil_of_none h i hfi] at hy
      cases hy
    | some n =>
      rw [pinG_update_self h i (fun n => { n with pin := n.pin ++ [p] }) n
        (fun m => rfl) hfi]
      rw [pinG_eq_of_some h i n hfi] at hy
      simp [hy]
  · rw [pinG_update_other h d i (fun n => { n with pin := n.pin ++ [p] })
      (fun n => rfl) hid]
    exact hy

theorem poutG_bridgeStep_mono (p d i y : Nat) (g : Graph)
    (hy : y ∈ poutG g i) : y ∈ poutG (rfpBridgeStep p g d) i := by
  unfold rfpBridgeStep rfpBridgeIn
  by_cases hg1 : d ∈ poutG g p
  · rw [if_pos hg1]
    by_cases hg2 : p ∈ pinG g d
    · rw [if_pos hg2]
      exact hy
    · rw [if_neg hg2, poutG_update_frame g d i
        (fun n => { n with pin := n.pin ++ [p] }) (fun n => rfl)
        (fun n => rfl)]
      exact hy
  · rw [if_neg hg1]
    have hy2 := poutG_update_append_mono g p d i y hy
    by_cases hg2 : p ∈ pinG (update g p
        (fun n => { n with pout := n.pout ++ [d] })) d
    · rw [if_pos hg2]
      exact hy2
    · rw [if_neg hg2, poutG_update_frame _ d i
        (fun n => { n with pin := n.pin ++ [p] }) (fun n => rfl)
        (fun n => rfl)]
      exact hy2

theorem pinG_bridgeStep_mono (p d i y : Nat) (g : Graph)
    (hy : y ∈ pinG g i) : y ∈ pinG (rfpBridgeStep p g d) i := by
  unfold rfpBridgeStep rfpBridgeIn
  by_cases hg1 : d ∈ poutG g p
  · rw [if_pos hg1]
    by_cases hg2 : p ∈ pinG g d
    · rw [if_pos hg2]
      exact hy
    · rw [if_neg hg2]
      exact pinG_update_append_mono g d p i y hy
  · rw [if_neg hg1]
    have hy2 : y ∈ pinG (update g p
        (fun n => { n with pout := n.pout ++ [d] })) i := by
      rw [pinG_update_frame g p i (fun n => { n with pout := n.pout ++ [d] })
        (fun n => rfl) (fun n => rfl)]
      exact hy
    by_cases hg2 : p ∈ pinG (update g p
        (fun n => { n with pout := n.pout ++ [d] })) d
    · rw [if_pos hg2]
      exact hy2
    · rw [if_neg hg2]
      exact pinG_update_append_mono _ d p i y hy2

theorem poutG_bridgeFold_mono (p : Nat) (ds : List Nat) : ∀ (g : Graph)
    (i y : Nat), y ∈ poutG g i →
    y ∈ poutG (ds.foldl (rfpBridgeStep p) g) i := by
  induction ds with
  | nil => intro g i y hy; exact hy
  | cons d ds ih =>
    intro g i y hy
    rw [List.foldl_cons]
    exact ih _ i y (poutG_bridgeStep_mono p d i y g hy)

theorem pinG_bridgeFold_mono (p : Nat) (ds : List Nat) : ∀ (g : Graph)
    (i y : Nat), y ∈ pinG g i →
    y ∈ pinG (ds.foldl (rfpBridgeStep p) g) i := by
  induction ds with
  | nil => intro g i y hy; exact hy
  | cons d ds ih =>
    intro g i y hy
    rw [List.foldl_cons]
    exact ih _ i y (pinG_bridgeStep_mono p d i y g hy)

theorem bridgeStep_establishes (p d : Nat) (g : Graph)
    (hp : p ∈ idsOf g) (hd : d ∈ idsOf g) :
    d ∈ poutG (rfpBridgeStep p g d) p ∧ p ∈ pinG (rfpBridgeStep p g d) d := by
  obtain ⟨pn, hfp⟩ := Option.isSome_iff_exists.mp
    ((idToNode_isSome_iff g p).mpr hp)
  obtain ⟨dn, hfd⟩ := Option.isSome_iff_exists.mp
    ((idToNode_isSome_iff g d).mpr hd)
  unfold rfpBridgeStep rfpBridgeIn
  by_cases hg1 : d ∈ poutG g p
  · rw [if_pos hg1]
    by_cases hg2 : p ∈ pinG g d
    · rw [if_pos hg2]
      exact ⟨hg1, hg2⟩
    · rw [if_neg hg2]
      constructor
      · rw [poutG_update_frame g d p (fun n => { n with pin := n.pin ++ [p] })
          (fun n => rfl) (fun n => rfl)]
        exact hg1
      · rw [pinG_update_self g d (fun n => { n with pin := n.pin ++ [p] }) dn
          (fun m => rfl) hfd]
        simp
  · rw [if_neg hg1]
    have hd3 : d ∈ poutG (update g p
        (fun n => { n with pout := n.pout ++ [d] })) p := by
      rw [poutG_update_self g p (fun n => { n with pout := n.pout ++ [d] }) pn
        (fun m => rfl) hfp]
      simp
    by_cases hg2 : p ∈ pinG (update g p
        (fun n => { n with pout := n.pout ++ [d] })) d
    · rw [if_pos hg2]
      exact ⟨hd3, hg2⟩
    · rw [if_neg hg2]
      have hfd2 : idToNode (update g p
          (fun n => { n with pout := n.pout ++ [d] })) d =
          some (if dn.id = p then { dn with pout := dn.pout ++ [d] }
            else dn) := by
        by_cases hdp : d = p
        · subst hdp
          rw [idToNode_update_self g d
            (fun n => { n with pout := n.pout ++ [d] }) (fun m => rfl), hfd]
          have : dn.id = d := (idToNode_mem_id g d dn hfd).2
          simp [this]
        · rw [idToNode_update_other g p d
            (fun n => { n with pout := n.pout ++ [d] }) (fun m => rfl) hdp,
            hfd]
          have : dn.id = d := (idToNode_mem_id g d dn hfd).2
          simp [this, hdp]
      constructor
      · rw [poutG_update_frame _ d p (fun n => { n with pin := n.pin ++ [p] })
          (fun n => rfl) (fun n => rfl)]
        exact hd3
      · rw [pinG_update_self _ d (fun n => { n with pin := n.pin ++ [p] }) _
          (fun m => rfl) hfd2]
        simp

theorem bridgeFold_establishes (p : Nat) (ds : List Nat) : ∀ g : Graph,
    p ∈ idsOf g → (∀ d ∈ ds, d ∈ idsOf g) →
    ∀ d ∈ ds, d ∈ poutG (ds.foldl (rfpBridgeStep p) g) p ∧
      p ∈ pinG (ds.foldl (rfpBridgeStep p) g) d := by
  induction ds with
  | nil => intro g _ _ d hd; cases hd
  | cons d0 ds ih =>
    intro g hp hds d hd
    rw [List.foldl_cons]
    rcases List.mem_cons.mp hd with he | hm
    · subst he
      have hest := bridgeStep_establishes p d g hp
        (hds d (List.mem_cons_self d ds))
      exact ⟨poutG_bridgeFold_mono p ds _ p d hest.1,
        pinG_bridgeFold_mono p ds _ d p hest.2⟩
    · have hp2 : p ∈ idsOf (rfpBridgeStep p g d0) := by
        rw [idsOf_bridgeStep]
        exact hp
      have hds2 : ∀ d' ∈ ds, d' ∈ idsOf (rfpBridgeStep p g d0) := by
        intro d' hd'
        rw [idsOf_bridgeStep]
        exact hds d' (List.mem_cons_of_mem d0 hd')
      exact ih (rfpBridgeStep p g d0) hp2 hds2 d hm

theorem idsOf_bridgeFold (p : Nat) (ds : List Nat) : ∀ g : Graph,
    idsOf (ds.foldl (rfpBridgeStep p) g) = idsOf g := by
  induction ds with
  | nil => intro g; rfl
  | cons d ds ih =>
    intro g
    rw [List.foldl_cons, ih, idsOf_bridgeStep]

theorem poutG_phase3Fold_mono (ps ds : List Nat) : ∀ (g : Graph) (i y : Nat),
    y ∈ poutG g i →
    y ∈ poutG (ps.foldl (fun acc p => ds.foldl (rfpBridgeStep p) acc) g) i := by
  induction ps with
  | nil => intro g i y hy; exact hy
  | cons p ps ih =>
    intro g i y hy
    rw [List.foldl_cons]
    exact ih _ i y (poutG_bridgeFold_mono p ds g i y hy)

theorem pinG_phase3Fold_mono (ps ds : List Nat) : ∀ (g : Graph) (i y : Nat),
    y ∈ pinG g i →
    y ∈ pinG (ps.foldl (fun acc p => ds.foldl (rfpBridgeStep p) acc) g) i := by
  induction ps with
  | nil => intro g i y hy; exact hy
  | cons p ps ih =>
    intro g i y hy
    rw [List.foldl_cons]
    exact ih _ i y (pinG_bridgeFold_mono p ds g i y hy)

theorem rfpPhase3_establishes (ps ds : List Nat) : ∀ g : Graph,
    (∀ p ∈ ps, p ∈ idsOf g) → (∀ d ∈ ds, d ∈ idsOf g) →
    ∀ p ∈ ps, ∀ d ∈ ds,
      d ∈ poutG (rfpPhase3 ps ds g) p ∧ p ∈ pinG (rfpPhase3 ps ds g) d := by
  unfold rfpPhase3
  induction ps with
  | nil => intro g _ _ p hp; cases hp
  | cons p0 ps ih =>
    intro g hps hds p hp d hd
    rw [List.foldl_cons]
    rcases List.mem_cons.mp hp with he | hm
    · subst he
      have hest := bridgeFold_establishes p ds g
        (hps p (List.mem_cons_self p ps)) hds d hd
      exact ⟨poutG_phase3Fold_mono ps ds _ p d hest.1,
        pinG_phase3Fold_mono ps ds _ d p hest.2⟩
    · have hps2 : ∀ p' ∈ ps, p' ∈ idsOf (ds.foldl (rfpBridgeStep p0) g) := by
        intro p' hp'
        rw [idsOf_bridgeFold]
        exact hps p' (List.mem_cons_of_mem p0 hp')
      have hds2 : ∀ d' ∈ ds, d' ∈ idsOf (ds.foldl (rfpBridgeStep p0) g) := by
        intro d' hd'
        rw [idsOf_bridgeFold]
        exact hds d' hd'
      exact ih _ hps2 hds2 p hm d hd

theorem pinG_bridgeStep_frame (p d x : Nat) (g : Graph) (hxd : x ≠ d) :
    pinG (rfpBridgeStep p g d) x = pinG g x := by
  unfold rfpBridgeStep rfpBridgeIn
  by_cases hg1 : d ∈ poutG g p
  · rw [if_pos hg1]
    by_cases hg2 : p ∈ pinG g d
    · rw [if_pos hg2]
    · rw [if_neg hg2, pinG_update_other g d x
        (fun n => { n with pin := n.pin ++ [p] }) (fun n => rfl) hxd]
  · rw [if_neg hg1]
    by_cases hg2 : p ∈ pinG (update g p
        (fun n => { n with pout := n.pout ++ [d] })) d
    · rw [if_pos hg2, pinG_update_frame g p x
        (fun n => { n with pout := n.pout ++ [d] }) (fun n => rfl)
        (fun n => rfl)]
    · rw [if_neg hg2, pinG_update_other _ d x
        (fun n => { n with pin := n.pin ++ [p] }) (fun n => rfl) hxd,
        pinG_update_frame g p x (fun n => { n with pout := n.pout ++ [d] })
        (fun n => rfl) (fun n => rfl)]

theorem poutG_bridgeStep_frame (p d x : Nat) (g : Graph) (hxp : x ≠ p) :
    poutG (rfpBridgeStep p g d) x = poutG g x := by
  unfold rfpBridgeStep rfpBridgeIn
  by_cases hg1 : d ∈ poutG g p
  · rw [if_pos hg1]
    by_cases hg2 : p ∈ pinG g d
    · rw [if_pos hg2]
    · rw [if_neg hg2, poutG_update_frame g d x
        (fun n => { n with pin := n.pin ++ [p] }) (fun n => rfl)
        (fun n => rfl)]
  · rw [if_neg hg1]
    by_cases hg2 : p ∈ pinG (update g p
        (fun n => { n with pout := n.pout ++ [d] })) d
    · rw [if_pos hg2, poutG_update_other g p x
        (fun n => { n with pout := n.pout ++ [d] }) (fun n => rfl) hxp]
    · rw [if_neg hg2, poutG_update_frame _ d x
        (fun n => { n with pin := n.pin ++ [p] }) (fun n => rfl)
        (fun n => rfl),
        poutG_update_other g p x (fun n => { n with pout := n.pout ++ [d] })
        (fun n => rfl) hxp]

theorem pinG_bridgeFold_frame (p x : Nat) (ds : List Nat) (hx : x ∉ ds) :
    ∀ g : Graph, pinG (ds.foldl (rfpBridgeStep p) g) x = pinG g x := by
  induction ds with
  | nil => intro g; rfl
  | cons d ds ih =>
    intro g
    rw [List.foldl_cons,
      ih (fun hm => hx (List.mem_cons_of_mem d hm)),
      pinG_bridgeStep_frame p d x g
      (fun he => hx (he ▸ List.mem_cons_self d ds))]

theorem poutG_bridgeFold_frame (p x : Nat) (ds : List Nat) (hxp : x ≠ p) :
    ∀ g : Graph, poutG (ds.foldl (rfpBridgeStep p) g) x = poutG g x := by
  induction ds with
  | nil => intro g; rfl
  | cons d ds ih =>
    intro g
    rw [List.foldl_cons, ih, poutG_bridgeStep_frame p d x g hxp]

theorem pinG_phase3_frame (ps ds : List Nat) (x : Nat) (hx : x ∉ ds) :
    ∀ g : Graph, pinG (rfpPhase3 ps ds g) x = pinG g x := by
  unfold rfpPhase3
  induction ps with
  | nil => intro g; rfl
  | cons p ps ih =>
    intro g
    rw [List.foldl_cons, ih, pinG_bridgeFold_frame p x ds hx g]

theorem poutG_phase3_frame (ps ds : List Nat) (x : Nat) (hx : x ∉ ps) :
    ∀ g : Graph, poutG (rfpPhase3 ps ds g) x = poutG g x := by
  unfold rfpPhase3
  induction ps with
  | nil => intro g; rfl
  | cons p ps ih =>
    intro g
    rw [List.foldl_cons,
      ih (fun hm => hx (List.mem_cons_of_mem p hm)),
      poutG_bridgeFold_frame p x ds
      (fun he => hx (he ▸ List.mem_cons_self p ps)) g]

/-- Predecessor node of the bridging witness. -/
def wRfpP : Node := { id := 0, className := "noteheadFull", pout := [2] }

/-- The node excised by the bridging witness. -/
def wRfpX : Node :=
  { id := 2, className := "noteheadFull", pin := [0], pout := [3] }

/-- Descendant node of the bridging witness. -/
def wRfpD : Node := { id := 3, className := "noteheadFull", pin := [2] }

/-- The bridging witness graph: 0 → 2 → 3 in precedence. -/
def wRfpG : Graph := [wRfpP, wRfpX, wRfpD]

/-- `remove_from_precedence(2)` on `wRfpG`: 0 → 3 bridged, node 2 bare. -/
def wRfpG' : Graph :=
  [{ id := 0, className := "noteheadFull", pout := [3] },
   { id := 2, className := "noteheadFull", pin := [], pout := [] },
   { id := 3, className := "noteheadFull", pin := [0] }]

/-- C8: on a graph with consistent precedence links, a normally returning
`remove_from_precedence(x)` leaves every former precedence-predecessor of
`x` with every former precedence-descendant of `x` among its precedence
outlinks (and reciprocally in the descendants' inlinks), and `x` itself with
no precedence inlinks or outlinks. -/
theorem removeFromPrecedence_bridges (g g' : Graph) (x : Nat) (xn : Node)
    (hc : Consistent g) (hx : idToNode g x = some xn)
    (hok : removeFromPrecedence g x = .ok g') :
    (∀ p ∈ xn.pin, ∀ d ∈ xn.pout, d ∈ poutG g' p ∧ p ∈ pinG g' d) ∧
    pinG g' x = [] ∧ poutG g' x = [] := by
  unfold removeFromPrecedence at hok
  simp only [hx] at hok
  by_cases h0 : xn.pin.isEmpty ∧ xn.pout.isEmpty
  · rw [if_pos h0] at hok
    cases hok
    have hpin : xn.pin = [] := List.isEmpty_iff.mp h0.1
    have hpout : xn.pout = [] := List.isEmpty_iff.mp h0.2
    refine ⟨fun p hp => ?_, ?_, ?_⟩
    · rw [hpin] at hp
      cases hp
    · rw [pinG_eq_of_some g x xn hx, hpin]
    · rw [poutG_eq_of_some g x xn hx, hpout]
  · rw [if_neg h0] at hok
    rw [bind_ok_iff] at hok
    obtain ⟨g1, hg1, h2⟩ := hok
    rw [bind_ok_iff] at h2
    obtain ⟨g2, hg2, h3⟩ := h2
    rw [pure_eq_ok] at h3
    cases h3
    have hpin1 : pinG g1 x = [] := by
      rw [rfpPhase1_pin x xn.pin g g1 hg1, pinG_eq_of_some g x xn hx]
      exact foldl_erase_self xn.pin
    have hxds : x ∉ xn.pout := rfpPhase2_ok_not_self x xn.pout g1 g2 hpin1 hg2
    have hxps : x ∉ xn.pin := by
      intro hmem
      have hxm := idToNode_mem_id g x xn hx
      have hiff := hc.2.2.2 xn hxm.1 xn hxm.1
      rw [hxm.2] at hiff
      exact hxds (hiff.mpr hmem)
    have hpout1 : poutG g1 x = xn.pout := by
      rw [rfpPhase1_pout_frame x xn.pin g g1 hg1 hxps,
        poutG_eq_of_some g x xn hx]
    have hpout2 : poutG g2 x = [] := by
      rw [rfpPhase2_pout x xn.pout g1 g2 hg2, hpout1]
      exact foldl_erase_self xn.pout
    have hpin2 : pinG g2 x = [] := by
      rw [rfpPhase2_pin_frame x xn.pout g1 g2 hg2 hxds, hpin1]
    have hfacts1 := rfpPhase1_ok_facts x xn.pin g g1 hg1
    have hfacts2 := rfpPhase2_ok_facts x xn.pout g1 g2 hg2
    refine ⟨fun p hp d hd => ?_, ?_, ?_⟩
    · exact rfpPhase3_establishes xn.pin xn.pout g2
        (fun p' hp' => by
          rw [hfacts2.1, hfacts1.1]
          exact hfacts1.2 p' hp')
        (fun d' hd' => by
          rw [hfacts2.1]
          exact hfacts2.2 d' hd')
        p hp d hd
    · rw [pinG_phase3_frame xn.pin xn.pout x hxds g2, hpin2]
    · rw [poutG_phase3_frame xn.pin xn.pout x hxps g2, hpout2]

/-- C8, witness: excising node 2 from the precedence chain 0 → 2 → 3 links
0 directly before 3 and leaves node 2 without precedence edges. -/
theorem removeFromPrecedence_bridges_witness :
    (∀ p ∈ wRfpX.pin, ∀ d ∈ wRfpX.pout,
      d ∈ poutG wRfpG' p ∧ p ∈ pinG wRfpG' d) ∧
    pinG wRfpG' 2 = [] ∧ poutG wRfpG' 2 = [] :=
  removeFromPrecedence_bridges wRfpG wRfpG' 2 wRfpX
    (by
      unfold Consistent UniqueIds NodupLinks Reciprocal PrecReciprocal
      decide)
    (by decide) (by decide)

/-- C1, counterexample to "the walk records that onset ... and continues
processing the remaining queue, regardless of whether the carried onset value
is zero or positive": dequeuing a node whose resolved onset is the positive
value 1 neither records it nor continues — `if q.onset > 0: break`
(onsets_inference.py line 1309) exits the whole loop, and `onsets()` returns
with the result table still empty. -/
theorem onsets_positive_onset_halts_unrecorded :
    onsetsStep {} cexBfsC1 = .halted { cexBfsC1 with qstart := 1 } ∧
    onsetsRun {} 5 cexBfsC1 = some (.ok []) := by
  constructor
  · rfl
  · rfl

/-- C1, amended: a dequeued node with resolved onset `v` halts the whole walk
unrecorded when `v > 0`, and records `v` for its symbol and continues when
`v = 0`; and the source seeding gives onset 0 exactly to the nodes with no
precedence inlinks. -/
theorem onsets_resolved_onset_spec (strategy : OnsetsStrategy) (s : BfsState)
    (h : s.qstart < s.queue.length) (q : PNode) (v : ℚ)
    (hq : pLookup s.pg (s.queue.get ⟨s.qstart, h⟩) = some q)
    (hv : q.onset = some v) :
    (0 < v → onsetsStep strategy s = .halted (advanceQueue s q) ∧
      (advanceQueue s q).onsets = s.onsets) ∧
    (v = 0 → ∀ oid, q.obj = some oid →
      onsetsStep strategy s = .running
        { advanceQueue s q with
            onsets := tset (advanceQueue s q).onsets oid v }) ∧
    (∀ pg : PGraph, (seedRoots pg).map (fun n => n.onset) =
      pg.map (fun n => if n.inlinks.isEmpty then some 0 else n.onset)) := by
  unfold onsetsStep
  rw [dif_pos h, hq]
  simp only [hv]
  refine ⟨fun h0 => ?_, fun h0 oid hoid => ?_, fun pg => ?_⟩
  · rw [if_pos h0]
    exact ⟨rfl, rfl⟩
  · rw [if_neg (by rw [h0]; exact lt_irrefl 0), hoid]
  · rw [seedRoots, List.map_map]
    refine List.map_congr_left fun n _ => ?_
    by_cases hc : n.inlinks = [] <;> simp [hc, List.isEmpty_iff]

/-- C1, witness: at `wBfsC1` the dequeued node carries onset 0, which is
recorded for symbol 5 and the loop continues. -/
theorem onsets_resolved_onset_spec_witness :
    onsetsStep {} wBfsC1 = .running
      { advanceQueue wBfsC1 wNodeC1 with
          onsets := tset (advanceQueue wBfsC1 wNodeC1).onsets 5 0 } :=
  (onsets_resolved_onset_spec {} wBfsC1 (by decide) wNodeC1 0 (by decide)
    rfl).2.1 rfl 5 rfl

/-- C5: when a dequeued node has all predecessors resolved, the candidate
onsets are predecessor onset plus predecessor duration; if they all agree the
first (common) candidate is assigned, if they disagree the permissive policy
assigns the maximum and continues, and the strict policy fails with
`ValueError`. -/
theorem onsets_convergence_policy (strategy : OnsetsStrategy) (s : BfsState)
    (h : s.qstart < s.queue.length) (q : PNode)
    (precQs : List PNode) (onsetVals : List ℚ) (p : ℚ) (ps : List ℚ)
    (hq : pLookup s.pg (s.queue.get ⟨s.qstart, h⟩) = some q)
    (hnone : q.onset = none)
    (hpre : q.inlinks.mapM (fun i => pLookup s.pg i) = some precQs)
    (hons : precQs.mapM (fun pq => pq.onset) = some onsetVals)
    (hprops : (onsetVals.zip (precQs.map (fun pq => pq.duration))).map
      (fun pr => pr.1 + pr.2) = p :: ps) :
    (pyMinList p ps = pyMaxList p ps →
      onsetsStep strategy s = .running (assignOnset (advanceQueue s q) q p)) ∧
    (pyMinList p ps ≠ pyMaxList p ps →
      strategy.permissiveDesynchronization = true →
      onsetsStep strategy s = .running
        (assignOnset (advanceQueue s q) q (pyMaxList p ps))) ∧
    (pyMinList p ps ≠ pyMaxList p ps →
      strategy.permissiveDesynchronization = false →
      onsetsStep strategy s = .failed .valueErr) := by
  unfold onsetsStep
  rw [dif_pos h, hq]
  simp only [hnone, hpre, hons, hprops]
  refine ⟨fun heq => ?_, fun hne hperm => ?_, fun hne hperm => ?_⟩
  · rw [if_neg (fun hcon => hcon heq)]
  · rw [if_pos hne, hperm]
    rfl
  · rw [if_pos hne, hperm]
    rfl

/-- C5, witness: at `wBfsC5` the candidates 1+1 and 2+0 agree, and the common
value is assigned to the successor. -/
theorem onsets_convergence_policy_witness :
    onsetsStep {} wBfsC5 = .running
      (assignOnset (advanceQueue wBfsC5 wSuccC) wSuccC ((1 : ℚ) + 1)) :=
  (onsets_convergence_policy {} wBfsC5 (by decide) wSuccC [wPredA, wPredB]
    [1, 2] ((1 : ℚ) + 1) [(2 : ℚ) + 0] (by decide) rfl rfl rfl rfl).1
    (by norm_num [pyMinList, pyMaxList])

end Mung
